import Mathlib

/-!
Verification of the Sunder note-taking backend (Rust/Tauri) against its
natural-language specification.  The Rust services are shallowly embedded:
SQLite tables become Lean lists, `f32` values are represented by their
32-bit IEEE-754 bit patterns (`Nat < 2^32`), `f64` scores are idealized as
rationals, fallible code returns `Except SunderError`.
-/

namespace Sunder

/-- Error taxonomy, translated from `src-tauri/src/error.rs` (`SunderError`). -/
inductive SunderError where
  | NotFound (msg : String)
  | AlreadyExists (msg : String)
  | ValidationError (msg : String)
  | DatabaseError (msg : String)
  | EmbeddingError (msg : String)
  | IoError (msg : String)
  | Internal (msg : String)
  | ContentTooLarge (msg : String)
  | EmptyQuery
  | ContentTooShort (msg : String)
  | AlreadyRunning
  | DirectoryNotFound (msg : String)
  | NotADirectory (msg : String)
  | PermissionDenied (msg : String)
  | InvalidValue (msg : String)
  deriving Repr, DecidableEq

deriving instance DecidableEq for Except

/-- Translation of `impl From<rusqlite::Error> for SunderError`
(`error.rs` lines 48-52): every SQLite error is wrapped into
`DatabaseError` with the error's display string. -/
def sunderFromRusqlite (msg : String) : SunderError :=
  SunderError.DatabaseError msg

/-- Unicode `White_Space` property, the character class used by Rust's
`char::is_whitespace`, `str::trim` and `str::split_whitespace`. -/
def rustIsWhitespace (c : Char) : Bool :=
  c = ' ' || c = '\t' || c = '\n' || c.val = 11 || c.val = 12 || c = '\r' ||
  c.val = 0x85 || c.val = 0xA0 || c.val = 0x1680 ||
  (0x2000 ≤ c.val && c.val ≤ 0x200A) ||
  c.val = 0x2028 || c.val = 0x2029 || c.val = 0x202F || c.val = 0x205F ||
  c.val = 0x3000

/-- Core of `str::split_whitespace`: walk the characters, accumulating the
current token (in reverse); whitespace flushes the token. -/
def splitWsCore : List Char → List Char → List String
  | [], acc => if acc.isEmpty then [] else [String.mk acc.reverse]
  | c :: cs, acc =>
    if rustIsWhitespace c then
      (if acc.isEmpty then [] else [String.mk acc.reverse]) ++ splitWsCore cs []
    else
      splitWsCore cs (c :: acc)

/-- Rust `str::split_whitespace` (non-empty tokens between runs of
Unicode whitespace). -/
def splitWhitespaceR (s : String) : List String :=
  splitWsCore s.data []

/-- Rust `str::trim`: remove leading and trailing Unicode whitespace. -/
def trimR (s : String) : String :=
  String.mk (((s.data.dropWhile (fun c => rustIsWhitespace c)).reverse.dropWhile
    (fun c => rustIsWhitespace c)).reverse)

/-- Number of whitespace-separated tokens, as computed by
`content.split_whitespace().count()` in `note.rs`. -/
def wordCountR (s : String) : Nat :=
  (splitWhitespaceR s).length

/-- UTF-8 byte length of a string, as computed by Rust's `str::len`. -/
def utf8Len (s : String) : Nat :=
  (s.data.map Char.utf8Size).sum

/-- Split a character list at every newline, keeping empty segments, exactly
as `str::split('\n')` does on the underlying text. -/
def splitNl : List Char → List (List Char)
  | [] => [[]]
  | c :: cs =>
    if c = '\n' then [] :: splitNl cs
    else
      match splitNl cs with
      | [] => [[c]]
      | l :: ls => (c :: l) :: ls

/-- Remove one trailing carriage return, as Rust's `str::lines` does for
segments that were terminated by a newline. -/
def stripTrailingCR (t : List Char) : List Char :=
  match t.reverse with
  | '\r' :: rest => rest.reverse
  | _ => t

/-- Combine the newline segments the way `str::lines` reports them: every
segment before the last was newline-terminated and loses a trailing
carriage return; a final empty segment (from a trailing newline, or an
empty string) produces no line. -/
def rustLinesAux : List (List Char) → List String
  | [] => []
  | [last] => if last.isEmpty then [] else [String.mk last]
  | p :: rest => String.mk (stripTrailingCR p) :: rustLinesAux rest

/-- Rust `str::lines`. -/
def rustLines (s : String) : List String :=
  rustLinesAux (splitNl s.data)

/-- Rust `str::join` on a vector of strings. -/
def joinSep (sep : String) : List String → String
  | [] => ""
  | [x] => x
  | x :: xs => x ++ sep ++ joinSep sep xs

/-- Left-to-right non-overlapping replacement of `"**"` by the empty string,
the behaviour of `str::replace("**", "")`. -/
def removeDoubleStar : List Char → List Char
  | '*' :: '*' :: rest => removeDoubleStar rest
  | c :: rest => c :: removeDoubleStar rest
  | [] => []

/-- Per-line cleanup inside `make_snippet`: `line.trim()`,
`.trim_start_matches('#')`, `.trim()`, `.replace("**", "")`,
`.replace('*', "")` (the last replace removes every remaining asterisk). -/
def snippetLine (line : String) : String :=
  let t1 := trimR line
  let t2 := String.mk (t1.data.dropWhile (fun c => c = '#'))
  let t3 := trimR t2
  String.mk ((removeDoubleStar t3.data).filter (fun c => c ≠ '*'))

/-- Byte slice `&s[..n]` on UTF-8 text: `some` prefix when byte position `n`
falls on a character boundary, `none` when the slice panics because `n`
is inside a multi-byte character (Rust's behaviour for a non-boundary
index). -/
def sliceBytes : Nat → List Char → Option (List Char)
  | 0, _ => some []
  | _ + 1, [] => none
  | n + 1, c :: cs =>
    if c.utf8Size ≤ n + 1 then (sliceBytes (n + 1 - c.utf8Size) cs).map (fun l => c :: l)
    else none

/-- Translation of `make_snippet` (`note.rs` lines 254-276 and the identical
copy in `search.rs` lines 239-260): take the first 250 chars, process each
line, join with single spaces, then if the result exceeds 200 bytes take
the byte slice `&stripped[..200]` and append an ellipsis.  The byte slice
panics (modelled as `none`) when byte 200 is not a character boundary. -/
def make_snippet (content : String) : Option String :=
  let first250 := String.mk (content.data.take 250)
  let stripped := joinSep " " ((rustLines first250).map snippetLine)
  if utf8Len stripped > 200 then
    (sliceBytes 200 stripped.data).map (fun l => String.mk l ++ "...")
  else some stripped

/-- Filter used by `sanitize_fts_query` (`search.rs` lines 219-237): keep a
token unless its uppercased form is one of the FTS operators
`OR AND NOT NEAR` or it contains `*` or `:`.  Rust uppercases with the
full Unicode mapping; since no character outside ASCII uppercases to any
letter of those four operators, the ASCII mapping `Char.toUpper` yields
the same filter decision on every string. -/
def sanitizeKeep (word : String) : Bool :=
  let upper := String.mk (word.data.map Char.toUpper)
  !(upper == "OR" || upper == "AND" || upper == "NOT" || upper == "NEAR") &&
    !(word.data.contains '*') && !(word.data.contains ':')

/-- Translation of `sanitize_fts_query` (`search.rs` lines 219-237): split
on whitespace, drop operator tokens and tokens containing `*` or `:`,
strip embedded double quotes (`str::replace('"', "")`), wrap each
survivor in double quotes and join with single spaces. -/
def sanitize_fts_query (query : String) : String :=
  joinSep " " (((splitWhitespaceR query).filter sanitizeKeep).map
    (fun word => "\"" ++ String.mk (word.data.filter (fun c => c ≠ '"')) ++ "\""))

/-- Case-insensitive string equality, the spec's reading of dropping tokens
that "equal OR, AND, NOT, or NEAR case-insensitively". -/
def eqIgnoreCase (a b : String) : Bool :=
  a.data.map Char.toLower == b.data.map Char.toLower

/-- Sanitizer written from the specification text, to be compared with the
translation of the source: "splitting on whitespace, dropping tokens equal
to FTS operators OR AND NOT NEAR (case-insensitive) or containing `*` or
`:`, stripping embedded `"`, quoting each surviving token, and joining
with spaces". -/
def sanitizeSpec (query : String) : String :=
  joinSep " " (((splitWhitespaceR query).filter (fun t =>
      !(eqIgnoreCase t "OR" || eqIgnoreCase t "AND" || eqIgnoreCase t "NOT" ||
        eqIgnoreCase t "NEAR" || t.data.contains '*' || t.data.contains ':'))).map
    (fun word => "\"" ++ String.mk (word.data.filter (fun c => c ≠ '"')) ++ "\""))

/-- Scored row produced by `fulltext_search` / `semantic_search`
(`search.rs`, struct `ScoredNote`); the `f64` score is idealized as a
rational. -/
structure ScoredNote where
  id : String
  title : String
  snippet : String
  score : ℚ
  deriving Repr, DecidableEq

/-- Translation of `fulltext_search` (`search.rs` lines 88-117): sanitize
the query; an empty sanitized query short-circuits to the empty result
list before any database access; otherwise the FTS `MATCH` query joined
back to `notes` is executed — the database execution (including BM25
ranking and snippet construction) is abstracted as the oracle `dbExec`
from (sanitized query, limit) to scored rows. -/
def fulltext_search (dbExec : String → Nat → List ScoredNote) (query : String)
    (limit : Nat) : Except SunderError (List ScoredNote) :=
  let sanitized := sanitize_fts_query query
  if sanitized = "" then Except.ok []
  else Except.ok (dbExec sanitized limit)

/-- Translation of `embedding_to_blob` (`embedding.rs` lines 263-269): each
`f32` (represented by its 32-bit pattern) contributes its four
little-endian bytes. -/
def embedding_to_blob (embedding : List Nat) : List Nat :=
  embedding.flatMap (fun v =>
    [v % 256, v / 256 % 256, v / 65536 % 256, v / 16777216 % 256])

/-- Translation of `blob_to_embedding` (`embedding.rs` lines 271-275):
`chunks_exact(4)` followed by `f32::from_le_bytes` on each chunk; a
trailing chunk shorter than 4 bytes is dropped. -/
def blob_to_embedding : List Nat → List Nat
  | b0 :: b1 :: b2 :: b3 :: rest =>
    (b0 + 256 * b1 + 65536 * b2 + 16777216 * b3) :: blob_to_embedding rest
  | _ => []

/-- Key-value lookup in an association-list model of a SQLite table keyed by
its first column. -/
def lookupKV : List (String × String) → String → Option String
  | [], _ => none
  | (k0, v0) :: rest, k => if k0 = k then some v0 else lookupKV rest k

/-- INSERT OR REPLACE into a key-value table: replace the row with this key
if present, append otherwise. -/
def upsertKV : List (String × String) → String → String → List (String × String)
  | [], k, v => [(k, v)]
  | (k0, v0) :: rest, k, v =>
    if k0 = k then (k, v) :: rest else (k0, v0) :: upsertKV rest k v

/-- Settings patch (`settings.rs`, struct `SettingsPatch`); the `f64`
threshold is idealized as a rational, `u32` as `Nat`. -/
structure SettingsPatch where
  similarity_threshold : Option ℚ
  debounce_ms : Option Nat
  theme : Option String

/-- Theme validation step of `update_settings`, split out so the early
returns of the Rust code become nested definitions. -/
def updateSettingsTheme (patch : SettingsPatch) (store : List (String × String)) :
    Except SunderError Unit × List (String × String) :=
  match patch.theme with
  | some theme =>
    if theme ≠ "dark" ∧ theme ≠ "light" then
      (Except.error (SunderError.InvalidValue "theme must be 'dark' or 'light'"), store)
    else (Except.ok (), upsertKV store "theme" theme)
  | none => (Except.ok (), store)

/-- Debounce validation step of `update_settings`
(`(100..=2000).contains(&debounce)`). -/
def updateSettingsDebounce (patch : SettingsPatch) (store : List (String × String)) :
    Except SunderError Unit × List (String × String) :=
  match patch.debounce_ms with
  | some debounce =>
    if ¬(100 ≤ debounce ∧ debounce ≤ 2000) then
      (Except.error (SunderError.InvalidValue "debounce_ms must be between 100 and 2000"), store)
    else updateSettingsTheme patch (upsertKV store "debounce_ms" (toString debounce))
  | none => updateSettingsTheme patch store

/-- Translation of `update_settings` (`settings.rs` lines 69-109): each
supplied field is validated and, when valid, immediately upserted before
the next field is examined; the first invalid field aborts with
`InvalidValue`, leaving the earlier upserts in place.  The pair carries
the post-call state of the `settings` table even on error. -/
def update_settings (patch : SettingsPatch) (store : List (String × String)) :
    Except SunderError Unit × List (String × String) :=
  match patch.similarity_threshold with
  | some threshold =>
    if ¬(0 ≤ threshold ∧ threshold ≤ 1) then
      (Except.error (SunderError.InvalidValue
        "similarity_threshold must be between 0.0 and 1.0"), store)
    else updateSettingsDebounce patch
      (upsertKV store "similarity_threshold" (toString threshold))
  | none => updateSettingsDebounce patch store

/-- Supplied-and-out-of-range test for the threshold field, following the
spec's reading "similarity_threshold outside [0,1]". -/
def simBad (patch : SettingsPatch) : Bool :=
  match patch.similarity_threshold with
  | some t => decide (¬(0 ≤ t ∧ t ≤ 1))
  | none => false

/-- Supplied-and-out-of-range test for the debounce field ("debounce_ms
outside [100,2000]"). -/
def debBad (patch : SettingsPatch) : Bool :=
  match patch.debounce_ms with
  | some d => decide (¬(100 ≤ d ∧ d ≤ 2000))
  | none => false

/-- Supplied-and-invalid test for the theme field ("theme other than 'dark'
or 'light'"). -/
def themeBad (patch : SettingsPatch) : Bool :=
  match patch.theme with
  | some th => decide (th ≠ "dark" ∧ th ≠ "light")
  | none => false

/-- Upsert of the threshold field when supplied ("upsert one key per
supplied field"). -/
def applySim (patch : SettingsPatch) (store : List (String × String)) :
    List (String × String) :=
  match patch.similarity_threshold with
  | some t => upsertKV store "similarity_threshold" (toString t)
  | none => store

/-- Upsert of the debounce field when supplied. -/
def applyDeb (patch : SettingsPatch) (store : List (String × String)) :
    List (String × String) :=
  match patch.debounce_ms with
  | some d => upsertKV store "debounce_ms" (toString d)
  | none => store

/-- Upsert of the theme field when supplied. -/
def applyTheme (patch : SettingsPatch) (store : List (String × String)) :
    List (String × String) :=
  match patch.theme with
  | some th => upsertKV store "theme" th
  | none => store

/-- Default contents of the `settings` table after migration v5
(`migrations.rs` lines 92-94). -/
def defaultSettings : List (String × String) :=
  [("similarity_threshold", "0.65"), ("debounce_ms", "300"), ("theme", "dark")]

/-- Row of the `notes` table (`migrations.rs` migration v1; `note.rs`,
struct `Note`). -/
structure NoteRow where
  id : String
  title : String
  content : String
  file_path : Option String
  word_count : Nat
  created_at : String
  updated_at : String
  deriving Repr, DecidableEq

/-- Row of the `embeddings` table (`migrations.rs` migration v3). -/
structure EmbeddingRow where
  note_id : String
  vector : List Nat
  model_version : String
  updated_at : String
  deriving Repr, DecidableEq

/-- Row of the `similarity_cache` table (`migrations.rs` migration v5);
`REAL` similarity idealized as a rational. -/
structure CacheRow where
  note_id_a : String
  note_id_b : String
  similarity : ℚ
  updated_at : String
  deriving Repr, DecidableEq

/-- The database state: the tables of migrations v1-v5.  The FTS shadow
table is maintained entirely by triggers and mirrors `notes`, so it is
not represented separately. -/
structure Database where
  notes : List NoteRow
  embeddings : List EmbeddingRow
  vec_embeddings : List (String × List Nat)
  similarity_cache : List CacheRow
  settings : List (String × String)
  deriving Repr, DecidableEq

/-- Database state right after `DatabaseManager::initialize` on a fresh
directory: empty tables except the seeded settings. -/
def initialDb : Database :=
  { notes := [], embeddings := [], vec_embeddings := [], similarity_cache := [],
    settings := defaultSettings }

/-- Title validation shared by `create_note` and `update_note`: trim, then
reject empty or over 500 bytes. -/
def validateTitle (t : String) : Except SunderError String :=
  let t := trimR t
  if t = "" then
    Except.error (SunderError.ValidationError "Title cannot be empty")
  else if utf8Len t > 500 then
    Except.error (SunderError.ValidationError "Title must be 500 characters or fewer")
  else Except.ok t

/-- Content validation shared by `create_note` and `update_note`: reject
over 2 MiB. -/
def validateContent (c : String) : Except SunderError String :=
  if utf8Len c > 2 * 1024 * 1024 then
    Except.error (SunderError.ContentTooLarge "Content exceeds 2MB limit")
  else Except.ok c

/-- Translation of `create_note` (`note.rs` lines 40-86): trim and validate
the title, validate the content size, insert the row.  The SQLite
`UNIQUE(file_path)` and `PRIMARY KEY(id)` constraints fire on conflict;
per `From<rusqlite::Error>` every such failure surfaces as
`DatabaseError`.  The UUID and timestamp are inputs of the model. -/
def create_note (id now : String) (title content : String) (file_path : Option String)
    (db : Database) : Except SunderError (Database × NoteRow) :=
  match validateTitle title with
  | Except.error e => Except.error e
  | Except.ok title =>
    match validateContent content with
    | Except.error e => Except.error e
    | Except.ok content =>
      if db.notes.any (fun r => r.id = id) then
        Except.error (sunderFromRusqlite "UNIQUE constraint failed: notes.id")
      else if (match file_path with
               | some p => db.notes.any (fun r => r.file_path = some p)
               | none => false) then
        Except.error (sunderFromRusqlite "UNIQUE constraint failed: notes.file_path")
      else
        let row : NoteRow :=
          { id := id, title := title, content := content, file_path := file_path,
            word_count := wordCountR content, created_at := now, updated_at := now }
        Except.ok ({ db with notes := db.notes ++ [row] }, row)

/-- Translation of `get_note` (`note.rs` lines 88-112). -/
def get_note (id : String) (db : Database) : Except SunderError NoteRow :=
  match db.notes.find? (fun r => r.id = id) with
  | some r => Except.ok r
  | none => Except.error (SunderError.NotFound ("Note not found: " ++ id))

/-- Translation of `update_note` (`note.rs` lines 138-196): load the
existing row (NotFound if absent), validate the supplied fields,
recompute the word count, and run the UPDATE, which rewrites only
`title`, `content`, `word_count` and `updated_at` of the matching row. -/
def update_note (id : String) (title content : Option String) (now : String)
    (db : Database) : Except SunderError (Database × NoteRow) :=
  match get_note id db with
  | Except.error e => Except.error e
  | Except.ok existing =>
    match (match title with
           | some t => validateTitle t
           | none => Except.ok existing.title) with
    | Except.error e => Except.error e
    | Except.ok new_title =>
      match (match content with
             | some c => validateContent c
             | none => Except.ok existing.content) with
      | Except.error e => Except.error e
      | Except.ok new_content =>
        let wc := wordCountR new_content
        let db2 := { db with notes := db.notes.map (fun r =>
          if r.id = id then
            { r with
              title := new_title
              content := new_content
              word_count := wc
              updated_at := now }
          else r) }
        Except.ok (db2, { id := id, title := new_title, content := new_content,
                          file_path := existing.file_path, word_count := wc,
                          created_at := existing.created_at, updated_at := now })

/-- Translation of `remove_embedding` (`embedding.rs` lines 189-194):
delete this note's rows from `embeddings` and `vec_embeddings`. -/
def remove_embedding (id : String) (db : Database) : Database :=
  { db with
    embeddings := db.embeddings.filter (fun r => r.note_id ≠ id),
    vec_embeddings := db.vec_embeddings.filter (fun r => r.1 ≠ id) }

/-- Translation of the `delete_note` command (`lib.rs` lines 99-104 plus
`note.rs` lines 198-213): remove the embedding rows, load the note
(NotFound if absent), delete the `notes` row; `ON DELETE CASCADE` on
`embeddings` would drop any remaining embedding row of this note.  The
removal of an on-disk file is an external I/O effect outside the model. -/
def delete_note (id : String) (db : Database) : Except SunderError Database :=
  match get_note id (remove_embedding id db) with
  | Except.error e => Except.error e
  | Except.ok _ =>
    Except.ok { remove_embedding id db with
      notes := (remove_embedding id db).notes.filter (fun r => r.id ≠ id),
      embeddings := (remove_embedding id db).embeddings.filter (fun r => r.note_id ≠ id) }

/-- Translation of `index_note` (`embedding.rs` lines 163-186): store the
vector's blob with INSERT OR REPLACE into `embeddings` (the foreign key
to `notes` fires when the note does not exist), then delete-and-insert
the `vec_embeddings` row.  The embedding vector, produced by ONNX
inference in the source, is an input of the model (a list of `f32` bit
patterns). -/
def index_note (id : String) (vector : List Nat) (now : String) (db : Database) :
    Except SunderError Database :=
  if ¬ db.notes.any (fun r => r.id = id) then
    Except.error (sunderFromRusqlite "FOREIGN KEY constraint failed")
  else
    Except.ok { db with
      embeddings := db.embeddings.filter (fun r => r.note_id ≠ id) ++
        [{ note_id := id, vector := embedding_to_blob vector,
           model_version := "minilm-v2-q8", updated_at := now }],
      vec_embeddings := db.vec_embeddings.filter (fun r => r.1 ≠ id) ++
        [(id, embedding_to_blob vector)] }

/-- Lexicographic comparison of character lists by code point; on UTF-8
text this is exactly the byte-wise `Ord` used by Rust `&str` and by
SQLite when it compares the TEXT note ids. -/
def charListLt : List Char → List Char → Bool
  | [], [] => false
  | [], _ :: _ => true
  | _ :: _, [] => false
  | a :: as, b :: bs =>
    if a.toNat < b.toNat then true
    else if b.toNat < a.toNat then false
    else charListLt as bs

/-- String comparison `a < b` as Rust and SQLite order the note ids. -/
def strLt (a b : String) : Bool :=
  charListLt a.data b.data

/-- Fold with early return, the shape of a Rust `for` loop whose body uses
the `?` operator. -/
def foldlE {α β : Type} (f : β → α → Except SunderError β) :
    β → List α → Except SunderError β
  | b, [] => Except.ok b
  | b, a :: as =>
    match f b a with
    | Except.error e => Except.error e
    | Except.ok b2 => foldlE f b2 as

/-- INSERT into `similarity_cache`, enforcing the table's
`CHECK (note_id_a < note_id_b)` and its primary key on the pair. -/
def insertCacheRow (rows : List CacheRow) (r : CacheRow) :
    Except SunderError (List CacheRow) :=
  if ¬ strLt r.note_id_a r.note_id_b then
    Except.error (sunderFromRusqlite "CHECK constraint failed: similarity_cache")
  else if rows.any (fun x => x.note_id_a = r.note_id_a ∧ x.note_id_b = r.note_id_b) then
    Except.error (sunderFromRusqlite "UNIQUE constraint failed: similarity_cache")
  else Except.ok (rows ++ [r])

/-- INSERT OR REPLACE into `similarity_cache`: the conflicting row (same
primary-key pair) is replaced; the CHECK constraint still applies. -/
def upsertCacheRow (rows : List CacheRow) (r : CacheRow) :
    Except SunderError (List CacheRow) :=
  if ¬ strLt r.note_id_a r.note_id_b then
    Except.error (sunderFromRusqlite "CHECK constraint failed: similarity_cache")
  else
    Except.ok (rows.filter (fun x => ¬(x.note_id_a = r.note_id_a ∧ x.note_id_b = r.note_id_b)) ++ [r])

/-- Translation of `rebuild_cache_for_note` (`graph.rs` lines 91-147): no-op
when the note has no embedding; otherwise delete every cache row
involving the note and insert one canonically ordered pair per other
embedded note.  The `f64` cosine of two decoded vectors is abstracted as
the function `cos` on the decoded float lists. -/
def rebuild_cache_for_note (cos : List Nat → List Nat → ℚ) (id now : String)
    (db : Database) : Except SunderError Database :=
  match db.embeddings.find? (fun r => r.note_id = id) with
  | none => Except.ok db
  | some row =>
    let note_embedding := blob_to_embedding row.vector
    let others := (db.embeddings.filter (fun r => r.note_id ≠ id)).map
      (fun r => (r.note_id, blob_to_embedding r.vector))
    let cleared := db.similarity_cache.filter
      (fun cr => ¬(cr.note_id_a = id ∨ cr.note_id_b = id))
    match foldlE (fun rows other =>
      let similarity := cos note_embedding other.2
      let pair : CacheRow :=
        if strLt id other.1 then
          { note_id_a := id, note_id_b := other.1, similarity := similarity, updated_at := now }
        else
          { note_id_a := other.1, note_id_b := id, similarity := similarity, updated_at := now }
      upsertCacheRow rows pair) cleared others with
    | Except.error e => Except.error e
    | Except.ok c => Except.ok { db with similarity_cache := c }

/-- Ordered index pairs (i, j) with i < j, as iterated by the nested loops
of `rebuild_full_cache`. -/
def orderedPairs (n : Nat) : List (Nat × Nat) :=
  (List.range n).flatMap (fun i => (List.range n).filterMap
    (fun j => if i < j then some (i, j) else none))

/-- Translation of `rebuild_full_cache` (`graph.rs` lines 150-192): decode
every embedding, truncate the cache, and insert one canonically ordered
row per index pair (i, j) with i < j; returns the inserted row count. -/
def rebuild_full_cache (cos : List Nat → List Nat → ℚ) (now : String) (db : Database) :
    Except SunderError (Database × Nat) :=
  let all := db.embeddings.map (fun r => (r.note_id, blob_to_embedding r.vector))
  match foldlE (fun rows ij =>
    match all.get? ij.1, all.get? ij.2 with
    | some a, some b =>
      let similarity := cos a.2 b.2
      let pair : CacheRow :=
        if strLt a.1 b.1 then
          { note_id_a := a.1, note_id_b := b.1, similarity := similarity, updated_at := now }
        else
          { note_id_a := b.1, note_id_b := a.1, similarity := similarity, updated_at := now }
      insertCacheRow rows pair
    | _, _ => Except.ok rows) ([] : List CacheRow) (orderedPairs all.length) with
  | Except.error e => Except.error e
  | Except.ok rows => Except.ok ({ db with similarity_cache := rows }, rows.length)

/-- A mutating public operation of the backend, with the values the source
obtains from its environment (UUIDv7, clock, ONNX inference) supplied as
parameters. -/
inductive Op where
  | createNote (id now title content : String) (file_path : Option String)
  | updateNote (id : String) (title content : Option String) (now : String)
  | deleteNote (id : String)
  | indexNote (id : String) (vector : List Nat) (now : String)
  | rebuildForNote (id now : String)
  | rebuildAll (now : String)
  | updateSettingsOp (patch : SettingsPatch)

/-- One public operation applied to the database; `cos` abstracts the
floating-point cosine similarity. -/
def stepOp (cos : List Nat → List Nat → ℚ) (op : Op) (db : Database) :
    Except SunderError Database :=
  match op with
  | Op.createNote id now title content fp =>
    match create_note id now title content fp db with
    | Except.error e => Except.error e
    | Except.ok r => Except.ok r.1
  | Op.updateNote id title content now =>
    match update_note id title content now db with
    | Except.error e => Except.error e
    | Except.ok r => Except.ok r.1
  | Op.deleteNote id => delete_note id db
  | Op.indexNote id v now => index_note id v now db
  | Op.rebuildForNote id now => rebuild_cache_for_note cos id now db
  | Op.rebuildAll now =>
    match rebuild_full_cache cos now db with
    | Except.error e => Except.error e
    | Except.ok r => Except.ok r.1
  | Op.updateSettingsOp patch =>
    match update_settings patch db.settings with
    | (Except.ok _, s) => Except.ok { db with settings := s }
    | (Except.error e, _) => Except.error e

/-- Run a sequence of operations; `none` as soon as one fails. -/
def runOps (cos : List Nat → List Nat → ℚ) : List Op → Database → Option Database
  | [], db => some db
  | op :: rest, db =>
    match stepOp cos op db with
    | Except.ok db2 => runOps cos rest db2
    | Except.error _ => none

/-- Search result shape (`search.rs`, struct `SearchResult`). -/
structure SearchResultL where
  id : String
  title : String
  snippet : String
  score : ℚ
  match_type : String
  deriving Repr, DecidableEq

/-- Value stored per note id while fusing result lists: the accumulated
score plus the `(f64, String, String, String)` payload of the
`rrf_scores` HashMap in `hybrid_search`. -/
structure RrfEntry where
  score : ℚ
  title : String
  snippet : String
  match_type : String
  deriving Repr, DecidableEq

/-- Association-list lookup (model of `HashMap::get`). -/
def alookup {α β : Type} [DecidableEq α] : List (α × β) → α → Option β
  | [], _ => none
  | kv :: rest, k => if kv.1 = k then some kv.2 else alookup rest k

/-- Model of `HashMap::insert` / `entry(k).or_insert(v)` when the stored
value for an existing key is simply replaced. -/
def hmInsert {α β : Type} [DecidableEq α] (m : List (α × β)) (k : α) (v : β) :
    List (α × β) :=
  if m.any (fun kv => kv.1 = k) then
    m.map (fun kv => if kv.1 = k then (kv.1, v) else kv)
  else m ++ [(k, v)]

/-- Model of `HashMap::entry(k).and_modify(f).or_insert(v)`: modify the
entry in place when the key is present, append the default otherwise. -/
def rrfUpsert (m : List (String × RrfEntry)) (k : String) (f : RrfEntry → RrfEntry)
    (v : RrfEntry) : List (String × RrfEntry) :=
  if m.any (fun kv => kv.1 = k) then
    m.map (fun kv => if kv.1 = k then (kv.1, f kv.2) else kv)
  else m ++ [(k, v)]

/-- First loop of `hybrid_search` (`search.rs` lines 168-180): each
full-text result at 0-based `rank` contributes `1/(60 + rank + 1)`; a
fresh id is inserted with match type "fulltext". -/
def ftsPass : List (String × RrfEntry) → List ScoredNote → Nat →
    List (String × RrfEntry)
  | m, [], _ => m
  | m, r :: rs, rank =>
    ftsPass (rrfUpsert m r.id
      (fun e => { e with score := e.score + 1 / (60 + (rank : ℚ) + 1) })
      { score := 1 / (60 + (rank : ℚ) + 1), title := r.title, snippet := r.snippet,
        match_type := "fulltext" }) rs (rank + 1)

/-- Second loop of `hybrid_search` (`search.rs` lines 182-199): each
semantic result contributes likewise; an id already fused from the
full-text list flips its match type from "fulltext" to "both"; a fresh
id is inserted with match type "semantic". -/
def semPass : List (String × RrfEntry) → List ScoredNote → Nat →
    List (String × RrfEntry)
  | m, [], _ => m
  | m, r :: rs, rank =>
    semPass (rrfUpsert m r.id
      (fun e => { e with
        score := e.score + 1 / (60 + (rank : ℚ) + 1)
        match_type := if e.match_type = "fulltext" then "both" else e.match_type })
      { score := 1 / (60 + (rank : ℚ) + 1), title := r.title, snippet := r.snippet,
        match_type := "semantic" }) rs (rank + 1)

/-- Total Reciprocal-Rank-Fusion contribution of one result list to one
note id: the sum of `1/(60 + rank + 1)` over the (0-based) ranks where
the id occurs — i.e. `1/(60 + r)` for 1-based rank r, summed. -/
def rrfContrib : List ScoredNote → Nat → String → ℚ
  | [], _, _ => 0
  | r :: rs, rank, id =>
    (if r.id = id then 1 / (60 + (rank : ℚ) + 1) else 0) + rrfContrib rs (rank + 1) id

/-- Stable insertion into a list sorted by descending score: the new
element goes after every element with a greater-or-equal score.  This is
the ordering produced by
`sort_by(|a, b| b.score.partial_cmp(&a.score).unwrap_or(Equal))`. -/
def insertScoreDesc (x : SearchResultL) : List SearchResultL → List SearchResultL
  | [] => [x]
  | y :: ys => if x.score ≤ y.score then y :: insertScoreDesc x ys else x :: y :: ys

/-- Stable sort by descending fused score (Rust's `sort_by` is a stable
sort; any stable sort yields this list). -/
def sortScoreDesc : List SearchResultL → List SearchResultL
  | [] => []
  | x :: xs => insertScoreDesc x (sortScoreDesc xs)

/-- Fusion step of `hybrid_search` (`search.rs` lines 161-215): fold both
result lists into the per-id map, turn the map into search results, sort
by fused score descending and truncate to `limit`. -/
def rrfCombine (fts sem : List ScoredNote) (limit : Nat) : List SearchResultL :=
  let m := semPass (ftsPass [] fts 0) sem 0
  let combined := m.map (fun kv =>
    { id := kv.1, title := kv.2.title, snippet := kv.2.snippet,
      score := kv.2.score, match_type := kv.2.match_type : SearchResultL })
  (sortScoreDesc combined).take limit

/-- Translation of `hybrid_search` (`search.rs` lines 152-216): run the
full-text and the semantic search each with limit `limit * 2` and fuse
them.  The two searches (including the query embedding) are abstracted
as the oracles `ftsS` and `semS` from (query, limit) to scored rows. -/
def hybrid_search (ftsS semS : String → Nat → List ScoredNote) (query : String)
    (limit : Nat) : List SearchResultL :=
  rrfCombine (ftsS query (limit * 2)) (semS query (limit * 2)) limit

/-- Search modes (`search.rs`, enum `SearchMode`). -/
inductive SearchMode where
  | Hybrid
  | Fulltext
  | Semantic

/-- Translation of `SearchService::search` (`search.rs` lines 45-86): trim
the query, reject an empty one with `EmptyQuery`, then dispatch on the
mode, tagging plain full-text and semantic results with their match
type. -/
def search (ftsS semS : String → Nat → List ScoredNote) (query : String)
    (mode : SearchMode) (limit : Nat) : Except SunderError (List SearchResultL) :=
  if trimR query = "" then Except.error SunderError.EmptyQuery
  else
    match mode with
    | SearchMode.Fulltext =>
      Except.ok ((ftsS (trimR query) limit).map (fun r =>
        { id := r.id, title := r.title, snippet := r.snippet, score := r.score,
          match_type := "fulltext" }))
    | SearchMode.Semantic =>
      Except.ok ((semS (trimR query) limit).map (fun r =>
        { id := r.id, title := r.title, snippet := r.snippet, score := r.score,
          match_type := "semantic" }))
    | SearchMode.Hybrid =>
      Except.ok (hybrid_search ftsS semS (trimR query) limit)

/-- Graph node (`graph.rs`, struct `GraphNode`). -/
structure GraphNode where
  id : String
  title : String
  cluster : Nat
  deriving Repr, DecidableEq

/-- Graph edge (`graph.rs`, struct `GraphEdge`). -/
structure GraphEdge where
  source : String
  target : String
  weight : ℚ
  deriving Repr, DecidableEq

/-- Graph payload (`graph.rs`, struct `GraphData`). -/
structure GraphData where
  nodes : List GraphNode
  edges : List GraphEdge
  deriving Repr, DecidableEq

/-- Translation of the inner `find` of `union_find_clusters` (`graph.rs`
lines 216-221), with path compression: `parent[i] = find(parent,
parent[i]); parent[i]`.  The Rust recursion terminates because the
parent array always encodes a forest; the model makes the same descent
explicit with a fuel argument — `parent.len()` steps always suffice for
a forest (proved below), and exhausted fuel returns `i` on unreachable
inputs. -/
def ufFind : Nat → List Nat → Nat → Nat × List Nat
  | 0, p, i => (i, p)
  | fuel + 1, p, i =>
    let pi := p.getD i i
    if pi = i then (i, p)
    else
      match ufFind fuel p pi with
      | (r, p2) => (r, p2.set i r)

/-- Translation of the inner `union` of `union_find_clusters` (`graph.rs`
lines 223-229): find both roots and graft one under the other when they
differ. -/
def ufUnion (p : List Nat) (a b : Nat) : List Nat :=
  match ufFind p.length p a with
  | (ra, p1) =>
    match ufFind p1.length p1 b with
    | (rb, p2) => if ra ≠ rb then p2.set ra rb else p2

/-- The id→index HashMap built by `union_find_clusters` (`graph.rs` lines
208-211); inserting in index order, so a repeated id keeps its last
index. -/
def buildIdxAux : List String → Nat → List (String × Nat) → List (String × Nat)
  | [], _, m => m
  | id :: rest, i, m => buildIdxAux rest (i + 1) (hmInsert m id i)

/-- Cluster-assignment loop of `union_find_clusters` (`graph.rs` lines
240-253): walk the notes in order, find each root (still compressing),
hand a fresh root the next cluster number, and record the note's
cluster. -/
def assignClusters : List String → Nat → List Nat → List (Nat × Nat) → Nat →
    List (String × Nat) → List (String × Nat)
  | [], _, _, _, _, result => result
  | id :: rest, i, parent, rtc, next, result =>
    match ufFind parent.length parent i with
    | (root, parent2) =>
      match alookup rtc root with
      | some c => assignClusters rest (i + 1) parent2 rtc next (hmInsert result id c)
      | none => assignClusters rest (i + 1) parent2 (hmInsert rtc root next) (next + 1)
          (hmInsert result id next)

/-- Edge-processing step of `union_find_clusters` (`graph.rs` lines
230-238): union the two endpoint indices when both ids are known,
otherwise skip the edge. -/
def edgeStep (idx : List (String × Nat)) (p : List Nat) (e : GraphEdge) :
    List Nat :=
  match alookup idx e.source, alookup idx e.target with
  | some a, some b => ufUnion p a b
  | _, _ => p

/-- Translation of `union_find_clusters` (`graph.rs` lines 206-256). -/
def union_find_clusters (ids : List String) (edges : List GraphEdge) :
    List (String × Nat) :=
  let id_to_idx := buildIdxAux ids 0 []
  let parent0 := List.range ids.length
  let parentE := edges.foldl (edgeStep id_to_idx) parent0
  assignClusters ids 0 parentE [] 0 []

/-- Edge selection of `get_graph` (`graph.rs` lines 54-66): the cache
rows with `similarity >= threshold`, as graph edges. -/
def selEdges (db : Database) (threshold : ℚ) : List GraphEdge :=
  (db.similarity_cache.filter (fun r => threshold ≤ r.similarity)).map
    (fun r => { source := r.note_id_a, target := r.note_id_b,
                weight := r.similarity : GraphEdge })

/-- Translation of `get_graph` (`graph.rs` lines 37-88): load all notes
(empty graph when there are none), select the cache rows with
`similarity >= threshold` as edges, cluster via union-find, and return
the nodes with cluster ids plus the edge list verbatim.  The
`center_note_id` argument is accepted and ignored, exactly as in the
source (`_center_note_id`). -/
def get_graph (db : Database) (centerNoteId : Option String) (threshold : ℚ) :
    GraphData :=
  let notes := db.notes.map (fun r => (r.id, r.title))
  if notes.isEmpty then { nodes := [], edges := [] }
  else
    let edges := selEdges db threshold
    let clusters := union_find_clusters (notes.map Prod.fst) edges
    { nodes := notes.map (fun nt =>
        { id := nt.1, title := nt.2, cluster := (alookup clusters nt.1).getD 0 }),
      edges := edges }

/-- One parent-pointer step of the union-find forest; indices outside the
array are their own parents. -/
def pstep (p : List Nat) (i : Nat) : Nat := p.getD i i

/-- Iterated parent steps. -/
def iterP (p : List Nat) : Nat → Nat → Nat
  | 0, i => i
  | k + 1, i => iterP p k (pstep p i)

/-- A root of the forest: its own parent. -/
def isRootP (p : List Nat) (i : Nat) : Prop := pstep p i = i

/-- Pure root computation by walking parent pointers with bounded fuel. -/
def rootAux : Nat → List Nat → Nat → Nat
  | 0, _, i => i
  | fuel + 1, p, i => if pstep p i = i then i else rootAux fuel p (pstep p i)

/-- The root of `i` in the forest `p` (adequate fuel for well-formed
parent arrays). -/
def rootD (p : List Nat) (i : Nat) : Nat := rootAux p.length p i

/-- Well-formedness of a parent array: in-range entries and acyclicity
(witnessed by a height function that strictly decreases along non-root
parent steps). -/
def WfP (p : List Nat) : Prop :=
  (∀ i < p.length, pstep p i < p.length) ∧
  ∃ h : Nat → Nat, ∀ i, ¬ isRootP p i → h (pstep p i) < h i

/-- The chain from `j` reaches the root `r`. -/
def ReachesP (p : List Nat) (j r : Nat) : Prop :=
  ∃ k, iterP p k j = r ∧ isRootP p r

/-- First-occurrence deduplication, accumulating seen values in order. -/
def firstOccAux (acc : List Nat) : List Nat → List Nat
  | [] => acc
  | x :: xs => firstOccAux (if x ∈ acc then acc else acc ++ [x]) xs

/-- The distinct values of a list, in order of first occurrence. -/
def firstOcc (l : List Nat) : List Nat := firstOccAux [] l

/-- The `m` consecutive indices starting at `i`. -/
def idxList : Nat → Nat → List Nat
  | _, 0 => []
  | i, m + 1 => i :: idxList (i + 1) m

/-- Position of a value in a list of naturals (0 when absent). -/
def indexOfN : List Nat → Nat → Nat
  | [], _ => 0
  | x :: xs, y => if x = y then 0 else indexOfN xs y + 1

/-- Position of a string in a list of strings (0 when absent). -/
def indexOfS : List String → String → Nat
  | [], _ => 0
  | x :: xs, y => if x = y then 0 else indexOfS xs y + 1

/-- Edge relation between note indices, as `union_find_clusters` unions
them: some edge of the list maps both endpoints through the id→index
map. -/
def edgeRelIdx (idx : List (String × Nat)) (edges : List GraphEdge)
    (u v : Nat) : Prop :=
  ∃ e ∈ edges, ∃ a b, alookup idx e.source = some a ∧ alookup idx e.target = some b ∧
    ((u = a ∧ v = b) ∨ (u = b ∧ v = a))

/-- Edge relation between note ids as the C7 claim reads it: a
similarity-cache row at or above the threshold whose two ids both belong
to the loaded notes list. -/
def edgeRelId (db : Database) (threshold : ℚ) (x y : String) : Prop :=
  ∃ r ∈ db.similarity_cache, threshold ≤ r.similarity ∧
    x ∈ db.notes.map NoteRow.id ∧ y ∈ db.notes.map NoteRow.id ∧
    ((x = r.note_id_a ∧ y = r.note_id_b) ∨ (x = r.note_id_b ∧ y = r.note_id_a))

/-- Connectivity by a path of selected similarity edges, per the claim. -/
def ConnectedIds (db : Database) (threshold : ℚ) (x y : String) : Prop :=
  Relation.EqvGen (edgeRelId db threshold) x y

/-- Association list numbering the elements of a list consecutively from
`k` (the shape of the root→cluster map of `assignClusters`). -/
def numberFrom : Nat → List Nat → List (Nat × Nat)
  | _, [] => []
  | k, x :: xs => (x, k) :: numberFrom (k + 1) xs

/-- Pure restatement of the cluster-assignment loop: walk the ids with
their indices, numbering roots (under the fixed root map `ρ`) in order of
first encounter, `F` being the roots already seen. -/
def assignPure : List String → Nat → (Nat → Nat) → List Nat → List (String × Nat)
  | [], _, _, _ => []
  | id :: rest, i, ρ, F =>
    if ρ i ∈ F then (id, indexOfN F (ρ i)) :: assignPure rest (i + 1) ρ F
    else (id, F.length) :: assignPure rest (i + 1) ρ (F ++ [ρ i])

/-- The roots seen (in first-encounter order) after the pure assignment
loop has processed a list of ids starting at index `i`. -/
def seenRoots : List String → Nat → (Nat → Nat) → List Nat → List Nat
  | [], _, _, F => F
  | _ :: rest, i, ρ, F =>
    seenRoots rest (i + 1) ρ (if ρ i ∈ F then F else F ++ [ρ i])

/-- Concrete two-note database with one cached similarity row, for
exercising the graph clustering theorem. -/
def cexGraphDb : Database :=
  { notes := [{ id := "a", title := "Alpha", content := "alpha body",
                file_path := none, word_count := 2, created_at := "t1",
                updated_at := "t1" },
              { id := "b", title := "Beta", content := "beta body",
                file_path := none, word_count := 2, created_at := "t2",
                updated_at := "t2" }],
    embeddings := [], vec_embeddings := [],
    similarity_cache := [{ note_id_a := "a", note_id_b := "b", similarity := 1,
                           updated_at := "t3" }],
    settings := [] }

/-- Canonical-ordering invariant of the `similarity_cache` table:
`note_id_a < note_id_b` in the text ordering. -/
def cacheOrdered (db : Database) : Prop :=
  ∀ r ∈ db.similarity_cache, strLt r.note_id_a r.note_id_b = true

/-- Concrete similarity function for concrete executions (the cosine value
itself is irrelevant to the cache-shape claims). -/
def cexCos : List Nat → List Nat → ℚ := fun _ _ => 0

/-- Concrete embedding vector of zero bit patterns (kept short so that
concrete executions stay small; no claim depends on the dimension). -/
def cexVec : List Nat := [0, 1065353216]

/-- Concrete successful trace: create and index two notes, then rebuild the
full similarity cache. -/
def cexWitnessOps : List Op :=
  [Op.createNote "a" "t1" "Alpha" "alpha body text" none,
   Op.createNote "b" "t2" "Beta" "beta body text" none,
   Op.indexNote "a" cexVec "t3",
   Op.indexNote "b" cexVec "t4",
   Op.rebuildAll "t5"]

/-- The database reached by `cexWitnessOps`. -/
def cexWitnessDb : Database :=
  { notes := [{ id := "a", title := "Alpha", content := "alpha body text",
                file_path := none, word_count := 3, created_at := "t1", updated_at := "t1" },
              { id := "b", title := "Beta", content := "beta body text",
                file_path := none, word_count := 3, created_at := "t2", updated_at := "t2" }],
    embeddings := [{ note_id := "a", vector := embedding_to_blob cexVec,
                     model_version := "minilm-v2-q8", updated_at := "t3" },
                   { note_id := "b", vector := embedding_to_blob cexVec,
                     model_version := "minilm-v2-q8", updated_at := "t4" }],
    vec_embeddings := [("a", embedding_to_blob cexVec), ("b", embedding_to_blob cexVec)],
    similarity_cache := [{ note_id_a := "a", note_id_b := "b", similarity := 0,
                           updated_at := "t5" }],
    settings := defaultSettings }

/-- Concrete trace ending in a successful `delete_note("a")`. -/
def cexOps : List Op := cexWitnessOps ++ [Op.deleteNote "a"]

end Sunder

namespace Sunder

/-- Round-trip for one float: recombining the four little-endian bytes of a
32-bit pattern recovers the pattern. -/
theorem le_bytes_roundtrip (x : Nat) (h : x < 2 ^ 32) :
    x % 256 + 256 * (x / 256 % 256) + 65536 * (x / 65536 % 256) +
      16777216 * (x / 16777216 % 256) = x := by
  omega

/-- C8: decoding the little-endian byte blob produced by encoding a vector
of 32-bit floats yields the original floats exactly:
`blob_to_embedding (embedding_to_blob v) = v` for every vector `v` of
32-bit patterns. -/
theorem blob_embedding_roundtrip (v : List Nat) (h : ∀ x ∈ v, x < 2 ^ 32) :
    blob_to_embedding (embedding_to_blob v) = v := by
  induction v with
  | nil => rfl
  | cons x xs ih =>
    have hx : x < 2 ^ 32 := h x (List.mem_cons_self x xs)
    have hxs : ∀ y ∈ xs, y < 2 ^ 32 := fun y hy => h y (List.mem_cons_of_mem x hy)
    have step : embedding_to_blob (x :: xs) =
        x % 256 :: x / 256 % 256 :: x / 65536 % 256 :: x / 16777216 % 256 ::
          embedding_to_blob xs := by
      simp [embedding_to_blob]
    rw [step, blob_to_embedding, ih hxs]
    congr 1
    omega

/-- Value of `Char.ofNat` at a valid scalar value. -/
theorem char_toNat_ofNat (n : Nat) (h : n.isValidChar) : (Char.ofNat n).toNat = n := by
  simp [Char.ofNat, dif_pos h, Char.ofNatAux, Char.toNat, UInt32.toNat]

/-- Characters are determined by their scalar values. -/
theorem char_eq_iff_toNat (a b : Char) : a = b ↔ a.toNat = b.toNat := by
  constructor
  · intro h; rw [h]
  · intro h
    exact Char.ext (UInt32.toNat.inj h)

/-- ASCII case conversion: a character uppercases to the letter with code
`n` exactly when it lowercases to the letter with code `n + 32`. -/
theorem toUpper_eq_iff_toLower_eq (c : Char) (n : Nat) (h65 : 65 ≤ n) (h90 : n ≤ 90) :
    c.toUpper = Char.ofNat n ↔ c.toLower = Char.ofNat (n + 32) := by
  have hvn : n.isValidChar := Or.inl (by omega)
  have hvn32 : (n + 32).isValidChar := Or.inl (by omega)
  rw [char_eq_iff_toNat, char_eq_iff_toNat, char_toNat_ofNat n hvn,
    char_toNat_ofNat (n + 32) hvn32]
  unfold Char.toUpper Char.toLower
  by_cases hc : c.toNat ≥ 97 ∧ c.toNat ≤ 122
  · rw [if_pos hc]
    rw [if_neg (by omega : ¬(c.toNat ≥ 65 ∧ c.toNat ≤ 90))]
    have hv : (c.toNat - 32).isValidChar := Or.inl (by omega)
    rw [char_toNat_ofNat _ hv]
    omega
  · rw [if_neg hc]
    by_cases hd : c.toNat ≥ 65 ∧ c.toNat ≤ 90
    · rw [if_pos hd]
      have hv : (c.toNat + 32).isValidChar := Or.inl (by omega)
      rw [char_toNat_ofNat _ hv]
      omega
    · rw [if_neg hd]
      omega

/-- Mapping `toUpper` hits a list of uppercase letters exactly when mapping
`toLower` hits the corresponding lowercase letters. -/
theorem map_upper_eq_iff (l : List Char) (ns : List Nat) (h : ∀ n ∈ ns, 65 ≤ n ∧ n ≤ 90) :
    l.map Char.toUpper = ns.map Char.ofNat ↔
      l.map Char.toLower = ns.map (fun n => Char.ofNat (n + 32)) := by
  induction l generalizing ns with
  | nil => cases ns <;> simp
  | cons c cs ih =>
    cases ns with
    | nil => simp
    | cons n ns2 =>
      have h1 := h n (List.mem_cons_self n ns2)
      simp only [List.map_cons, List.cons.injEq]
      rw [toUpper_eq_iff_toLower_eq c n h1.1 h1.2,
        ih ns2 (fun m hm => h m (List.mem_cons_of_mem n hm))]

/-- Uppercase comparison with an FTS keyword coincides with the
case-insensitive comparison used by the spec. -/
theorem keyword_case (l : List Char) (ns : List Nat) (kw : String)
    (h : ∀ n ∈ ns, 65 ≤ n ∧ n ≤ 90) (hkwU : kw.data = ns.map Char.ofNat)
    (hkwL : kw.data.map Char.toLower = ns.map (fun n => Char.ofNat (n + 32))) :
    (String.mk (l.map Char.toUpper) == kw) =
      (l.map Char.toLower == kw.data.map Char.toLower) := by
  rw [Bool.eq_iff_iff]
  simp only [beq_iff_eq]
  constructor
  · intro he
    have : l.map Char.toUpper = kw.data := congrArg String.data he
    rw [hkwL, ← map_upper_eq_iff l ns h, ← hkwU]
    exact this
  · intro he
    rw [hkwL] at he
    rw [← map_upper_eq_iff l ns h] at he
    show String.mk (l.map Char.toUpper) = String.mk kw.data
    rw [he, hkwU]

/-- Keeping a token in the source sanitizer is the complement of the spec's
drop condition. -/
theorem sanitizeKeep_eq_spec (t : String) :
    sanitizeKeep t = !(eqIgnoreCase t "OR" || eqIgnoreCase t "AND" ||
      eqIgnoreCase t "NOT" || eqIgnoreCase t "NEAR" ||
      t.data.contains '*' || t.data.contains ':') := by
  simp only [sanitizeKeep, eqIgnoreCase]
  rw [keyword_case t.data [79, 82] "OR" (by decide) (by decide) (by decide),
    keyword_case t.data [65, 78, 68] "AND" (by decide) (by decide) (by decide),
    keyword_case t.data [78, 79, 84] "NOT" (by decide) (by decide) (by decide),
    keyword_case t.data [78, 69, 65, 82] "NEAR" (by decide) (by decide) (by decide)]
  cases h1 : (t.data.map Char.toLower == "OR".data.map Char.toLower) <;>
    cases h2 : (t.data.map Char.toLower == "AND".data.map Char.toLower) <;>
    cases h3 : (t.data.map Char.toLower == "NOT".data.map Char.toLower) <;>
    cases h4 : (t.data.map Char.toLower == "NEAR".data.map Char.toLower) <;>
    cases h5 : t.data.contains '*' <;> cases h6 : t.data.contains ':' <;> rfl

/-- C6: full-text sanitization splits on whitespace, drops tokens equal to
OR/AND/NOT/NEAR case-insensitively or containing `*` or `:`, strips
embedded double quotes, quotes each survivor and joins with spaces; and
whenever the sanitized query is empty, `fulltext_search` returns the
empty result list without error (and without consulting the database). -/
theorem sanitize_fts_query_correct (q : String) :
    sanitize_fts_query q = sanitizeSpec q ∧
      (sanitize_fts_query q = "" →
        ∀ (dbExec : String → Nat → List ScoredNote) (limit : Nat),
          fulltext_search dbExec q limit = Except.ok []) := by
  constructor
  · unfold sanitize_fts_query sanitizeSpec
    congr 2
    apply List.filter_congr
    intro t _
    exact sanitizeKeep_eq_spec t
  · intro h dbExec limit
    unfold fulltext_search
    simp [h]

/-- Witness for C6 at a concrete query whose tokens are all dropped. -/
theorem sanitize_fts_query_correct_witness :
    fulltext_search (fun _ _ => [⟨"n1", "T", "S", 1⟩]) "or AND x:y a*b" 10 =
      Except.ok [] :=
  (sanitize_fts_query_correct "or AND x:y a*b").2 (by decide)
    (fun _ _ => [⟨"n1", "T", "S", 1⟩]) 10

/-- C5 evaluation at the failing input: a content of 67 Euro signs (each 3
UTF-8 bytes) produces a stripped text of 201 bytes whose byte position
200 is inside a character, so the byte slice `&stripped[..200]` in
`make_snippet` panics (modelled as `none`). -/
theorem make_snippet_panics_at_multibyte :
    make_snippet (String.mk (List.replicate 67 (Char.ofNat 8364))) = none := by
  decide

/-- Counterexample to C3: a patch with a valid `similarity_threshold` and an
out-of-range `debounce_ms` fails with `InvalidValue`, yet the settings
table has already been changed by the threshold upsert. -/
theorem update_settings_writes_before_validation :
    (update_settings ⟨some 0, some 50, none⟩ defaultSettings).1 =
        Except.error (SunderError.InvalidValue
          "debounce_ms must be between 100 and 2000") ∧
      (update_settings ⟨some 0, some 50, none⟩ defaultSettings).2 ≠
        defaultSettings := by
  constructor
  · decide
  · decide

/-- C3 as amended: `update_settings` validates and writes field by field in
the order similarity_threshold, debounce_ms, theme; the first invalid
supplied field aborts with `InvalidValue`, but every valid supplied field
earlier in that order has already been upserted; when all supplied fields
are valid the call succeeds and upserts one key per supplied field. -/
theorem update_settings_field_order (p : SettingsPatch) (s : List (String × String)) :
    update_settings p s =
      if simBad p then
        (Except.error (SunderError.InvalidValue
          "similarity_threshold must be between 0.0 and 1.0"), s)
      else if debBad p then
        (Except.error (SunderError.InvalidValue
          "debounce_ms must be between 100 and 2000"), applySim p s)
      else if themeBad p then
        (Except.error (SunderError.InvalidValue
          "theme must be 'dark' or 'light'"), applyDeb p (applySim p s))
      else (Except.ok (), applyTheme p (applyDeb p (applySim p s))) := by
  rcases p with ⟨sim, deb, th⟩
  cases sim <;> cases deb <;> cases th <;>
    simp only [update_settings, updateSettingsDebounce, updateSettingsTheme,
      simBad, debBad, themeBad, applySim, applyDeb, applyTheme,
      decide_eq_true_eq, Bool.false_eq_true, if_false] <;>
    split_ifs <;> rfl

/-- C4 evaluation at the failing input: creating a note whose `file_path`
equals that of an existing note fails, but with `DatabaseError` (the
blanket `From<rusqlite::Error>` conversion), not with `AlreadyExists`. -/
theorem create_note_unique_surfaces_database_error :
    (create_note "id-2" "2025-01-02T00:00:00+00:00" "Second" "some body here"
        (some "/notes/a.md")
        { notes := [{ id := "id-1", title := "First", content := "hello world text",
                      file_path := some "/notes/a.md", word_count := 3,
                      created_at := "t0", updated_at := "t0" }],
          embeddings := [], vec_embeddings := [], similarity_cache := [],
          settings := defaultSettings } =
      Except.error (SunderError.DatabaseError
        "UNIQUE constraint failed: notes.file_path")) ∧
    ∀ msg, create_note "id-2" "2025-01-02T00:00:00+00:00" "Second" "some body here"
        (some "/notes/a.md")
        { notes := [{ id := "id-1", title := "First", content := "hello world text",
                      file_path := some "/notes/a.md", word_count := 3,
                      created_at := "t0", updated_at := "t0" }],
          embeddings := [], vec_embeddings := [], similarity_cache := [],
          settings := defaultSettings } ≠
      Except.error (SunderError.AlreadyExists msg) := by
  refine ⟨by decide, ?_⟩
  intro msg h
  rw [show create_note "id-2" "2025-01-02T00:00:00+00:00" "Second" "some body here"
        (some "/notes/a.md")
        { notes := [{ id := "id-1", title := "First", content := "hello world text",
                      file_path := some "/notes/a.md", word_count := 3,
                      created_at := "t0", updated_at := "t0" }],
          embeddings := [], vec_embeddings := [], similarity_cache := [],
          settings := defaultSettings } =
      Except.error (SunderError.DatabaseError
        "UNIQUE constraint failed: notes.file_path") from by decide] at h
  simp at h

/-- C10: a successful `update_note` rewrites only `title`, `content`,
`word_count` and `updated_at` of the targeted row — so its `id`,
`file_path` and `created_at` are kept — and leaves every other note's
row unchanged. -/
theorem update_note_frame (id : String) (t c : Option String) (now : String)
    (db db2 : Database) (note : NoteRow)
    (h : update_note id t c now db = Except.ok (db2, note)) :
    (∃ nt nc wc, db2.notes = db.notes.map (fun r =>
      if r.id = id then
        { r with title := nt, content := nc, word_count := wc, updated_at := now }
      else r)) ∧
    (∀ r ∈ db.notes, r.id ≠ id → r ∈ db2.notes) ∧
    (∀ r ∈ db.notes, r.id = id → ∃ r2 ∈ db2.notes, r2.id = r.id ∧
      r2.file_path = r.file_path ∧ r2.created_at = r.created_at) := by
  have hmain : ∃ nt nc wc, db2.notes = db.notes.map (fun r =>
      if r.id = id then
        { r with title := nt, content := nc, word_count := wc, updated_at := now }
      else r) := by
    unfold update_note at h
    split at h
    · cases h
    · split at h
      · cases h
      · split at h
        · cases h
        · injection h with h2
          injection h2 with h3 h4
          exact ⟨_, _, _, congrArg Database.notes h3.symm⟩
  refine ⟨hmain, ?_, ?_⟩
  · rcases hmain with ⟨nt, nc, wc, hn⟩
    intro r hr hne
    rw [hn]
    have : (if r.id = id then
        { r with title := nt, content := nc, word_count := wc, updated_at := now }
      else r) = r := by rw [if_neg hne]
    rw [← this]
    exact List.mem_map_of_mem _ hr
  · rcases hmain with ⟨nt, nc, wc, hn⟩
    intro r hr he
    refine ⟨(if r.id = id then
        { r with title := nt, content := nc, word_count := wc, updated_at := now }
      else r), ?_, ?_⟩
    · rw [hn]; exact List.mem_map_of_mem _ hr
    · rw [if_pos he]; exact ⟨rfl, rfl, rfl⟩

/-- Witness for C10 at a concrete successful update. -/
theorem update_note_frame_witness :
    (update_note "a" (some "U") none "t1"
        { notes := [{ id := "a", title := "T", content := "c d e", file_path := none,
                      word_count := 3, created_at := "t0", updated_at := "t0" }],
          embeddings := [], vec_embeddings := [], similarity_cache := [],
          settings := defaultSettings } =
      Except.ok ({ notes := [{ id := "a", title := "U", content := "c d e",
                               file_path := none, word_count := 3,
                               created_at := "t0", updated_at := "t1" }],
                   embeddings := [], vec_embeddings := [], similarity_cache := [],
                   settings := defaultSettings },
                 { id := "a", title := "U", content := "c d e", file_path := none,
                   word_count := 3, created_at := "t0", updated_at := "t1" })) ∧
    ((∃ nt nc wc,
        ({ notes := [{ id := "a", title := "U", content := "c d e",
                       file_path := none, word_count := 3,
                       created_at := "t0", updated_at := "t1" }],
           embeddings := [], vec_embeddings := [], similarity_cache := [],
           settings := defaultSettings } : Database).notes =
          ({ notes := [{ id := "a", title := "T", content := "c d e", file_path := none,
                         word_count := 3, created_at := "t0", updated_at := "t0" }],
             embeddings := [], vec_embeddings := [], similarity_cache := [],
             settings := defaultSettings } : Database).notes.map (fun r =>
            if r.id = "a" then
              { r with title := nt, content := nc, word_count := wc, updated_at := "t1" }
            else r)) ∧ True ∧ True) := by
  have hu : update_note "a" (some "U") none "t1"
      { notes := [{ id := "a", title := "T", content := "c d e", file_path := none,
                    word_count := 3, created_at := "t0", updated_at := "t0" }],
        embeddings := [], vec_embeddings := [], similarity_cache := [],
        settings := defaultSettings } =
      Except.ok ({ notes := [{ id := "a", title := "U", content := "c d e",
                               file_path := none, word_count := 3,
                               created_at := "t0", updated_at := "t1" }],
                   embeddings := [], vec_embeddings := [], similarity_cache := [],
                   settings := defaultSettings },
                 { id := "a", title := "U", content := "c d e", file_path := none,
                   word_count := 3, created_at := "t0", updated_at := "t1" }) := by
    decide
  refine ⟨hu, ?_, trivial, trivial⟩
  exact (update_note_frame "a" (some "U") none "t1" _ _ _ hu).1

/-- Generic invariant preservation for the early-return fold. -/
theorem foldlE_invariant {α β : Type} (f : β → α → Except SunderError β)
    (P : β → Prop) (l : List α) (init res : β)
    (h : foldlE f init l = Except.ok res) (hinit : P init)
    (hstep : ∀ b a b2, P b → f b a = Except.ok b2 → P b2) : P res := by
  induction l generalizing init with
  | nil =>
    unfold foldlE at h
    injection h with h2
    rw [← h2]
    exact hinit
  | cons a rest ih =>
    unfold foldlE at h
    cases hf : f init a with
    | error e => rw [hf] at h; cases h
    | ok b2 =>
      rw [hf] at h
      exact ih b2 h (hstep init a b2 hinit hf)

/-- A successful plain INSERT into `similarity_cache` keeps every row
canonically ordered. -/
theorem insertCacheRow_ordered (rows rows2 : List CacheRow) (r : CacheRow)
    (h : insertCacheRow rows r = Except.ok rows2)
    (hr : ∀ x ∈ rows, strLt x.note_id_a x.note_id_b = true) :
    ∀ x ∈ rows2, strLt x.note_id_a x.note_id_b = true := by
  unfold insertCacheRow at h
  split_ifs at h with h1 h2
  injection h with h3
  intro x hx
  rw [← h3] at hx
  rcases List.mem_append.1 hx with hx | hx
  · exact hr x hx
  · rcases List.mem_singleton.1 hx with rfl
    exact h1

/-- A successful INSERT OR REPLACE into `similarity_cache` keeps every row
canonically ordered. -/
theorem upsertCacheRow_ordered (rows rows2 : List CacheRow) (r : CacheRow)
    (h : upsertCacheRow rows r = Except.ok rows2)
    (hr : ∀ x ∈ rows, strLt x.note_id_a x.note_id_b = true) :
    ∀ x ∈ rows2, strLt x.note_id_a x.note_id_b = true := by
  unfold upsertCacheRow at h
  split_ifs at h with h1
  injection h with h3
  intro x hx
  rw [← h3] at hx
  rcases List.mem_append.1 hx with hx | hx
  · exact hr x (List.mem_of_mem_filter hx)
  · rcases List.mem_singleton.1 hx with rfl
    exact h1

/-- A successful `create_note` only appends to `notes`. -/
theorem create_note_frame (id now t c : String) (fp : Option String)
    (db db2 : Database) (n : NoteRow)
    (h : create_note id now t c fp db = Except.ok (db2, n)) :
    db2.embeddings = db.embeddings ∧ db2.vec_embeddings = db.vec_embeddings ∧
      db2.similarity_cache = db.similarity_cache := by
  unfold create_note at h
  split at h
  · cases h
  · split at h
    · cases h
    · split_ifs at h
      injection h with h2
      injection h2 with h3 h4
      rw [← h3]
      exact ⟨rfl, rfl, rfl⟩

/-- A successful `update_note` only rewrites rows of `notes`. -/
theorem update_note_frame_tables (id : String) (t c : Option String) (now : String)
    (db db2 : Database) (n : NoteRow)
    (h : update_note id t c now db = Except.ok (db2, n)) :
    db2.embeddings = db.embeddings ∧ db2.vec_embeddings = db.vec_embeddings ∧
      db2.similarity_cache = db.similarity_cache := by
  unfold update_note at h
  split at h
  · cases h
  · split at h
    · cases h
    · split at h
      · cases h
      · injection h with h2
        injection h2 with h3 h4
        rw [← h3]
        exact ⟨rfl, rfl, rfl⟩

/-- One successful public operation preserves the canonical ordering of
`similarity_cache`. -/
theorem stepOp_preserves_ordered (cos : List Nat → List Nat → ℚ) (op : Op)
    (db db2 : Database) (h : stepOp cos op db = Except.ok db2)
    (hord : cacheOrdered db) : cacheOrdered db2 := by
  cases op with
  | createNote id now t c fp =>
    simp only [stepOp] at h
    split at h
    · cases h
    · rename_i p hc
      injection h with h2
      have := (create_note_frame id now t c fp db p.1 p.2 (by rw [hc])).2.2
      rw [← h2]
      intro r hr
      exact hord r (this ▸ hr)
  | updateNote id t c now =>
    simp only [stepOp] at h
    split at h
    · cases h
    · rename_i p hc
      injection h with h2
      have := (update_note_frame_tables id t c now db p.1 p.2 (by rw [hc])).2.2
      rw [← h2]
      intro r hr
      exact hord r (this ▸ hr)
  | deleteNote id =>
    simp only [stepOp] at h
    unfold delete_note at h
    split at h
    · cases h
    · injection h with h2
      rw [← h2]
      intro r hr
      exact hord r hr
  | indexNote id v now =>
    simp only [stepOp] at h
    unfold index_note at h
    split_ifs at h with h1 <;> cases h <;> intro r hr <;> exact hord r hr
  | rebuildForNote id now =>
    simp only [stepOp] at h
    unfold rebuild_cache_for_note at h
    split at h
    · injection h with h2; rw [← h2]; exact hord
    · rename_i row hrow
      dsimp only at h
      split at h
      · cases h
      · rename_i rows hf
        injection h with h2
        rw [← h2]
        intro r hr
        refine foldlE_invariant _ (fun rs => ∀ x ∈ rs, strLt x.note_id_a x.note_id_b = true)
          _ _ _ hf
          (fun x hx => hord x (List.mem_of_mem_filter hx))
          (fun b a b2 hb hstep => upsertCacheRow_ordered b b2 _ hstep hb) r hr
  | rebuildAll now =>
    simp only [stepOp] at h
    split at h
    · cases h
    · rename_i q hq
      injection h with h2
      unfold rebuild_full_cache at hq
      dsimp only at hq
      split at hq
      · cases hq
      · rename_i rows hf
        injection hq with hq2
        rw [← h2, ← hq2]
        intro r hr
        refine foldlE_invariant _ (fun rs => ∀ x ∈ rs, strLt x.note_id_a x.note_id_b = true)
          _ _ _ hf
          (by intro x hx; cases hx)
          (fun b a b2 hb hstep => ?_) r hr
        revert hstep
        dsimp only
        split
        · split
          · intro hstep
            exact insertCacheRow_ordered b b2 _ hstep hb
          · intro hstep
            exact insertCacheRow_ordered b b2 _ hstep hb
        · intro hstep
          injection hstep with h4
          rw [← h4]
          exact hb
  | updateSettingsOp patch =>
    simp only [stepOp] at h
    split at h
    · injection h with h2
      rw [← h2]
      intro r hr
      exact hord r hr
    · cases h

/-- Running a successful trace from an ordered state leaves the cache
ordered. -/
theorem runOps_ordered (cos : List Nat → List Nat → ℚ) (ops : List Op) :
    ∀ db0 db : Database, cacheOrdered db0 → runOps cos ops db0 = some db →
      cacheOrdered db := by
  induction ops with
  | nil =>
    intro db0 db h0 h
    unfold runOps at h
    injection h with h2
    rw [← h2]
    exact h0
  | cons op rest ih =>
    intro db0 db h0 h
    unfold runOps at h
    cases hs : stepOp cos op db0 with
    | error e => rw [hs] at h; cases h
    | ok db1 =>
      rw [hs] at h
      exact ih db1 db (stepOp_preserves_ordered cos op db0 db1 hs h0) h

/-- C1 as amended: after any successful trace of public operations, every
row of `similarity_cache` is canonically ordered (`note_id_a <
note_id_b`); and whenever `delete_note(id)` then succeeds, the resulting
state has no row for `id` in `embeddings`, `vec_embeddings` or `notes` —
but rows mentioning `id` may remain in `similarity_cache` until a graph
rebuild. -/
theorem similarity_cache_invariant_amended (cos : List Nat → List Nat → ℚ)
    (ops : List Op) (db : Database) (h : runOps cos ops initialDb = some db) :
    cacheOrdered db ∧
    (∀ id db2, stepOp cos (Op.deleteNote id) db = Except.ok db2 →
      (∀ e ∈ db2.embeddings, e.note_id ≠ id) ∧
      (∀ v ∈ db2.vec_embeddings, v.1 ≠ id) ∧
      (∀ n ∈ db2.notes, n.id ≠ id)) := by
  constructor
  · exact runOps_ordered cos ops initialDb db (by intro r hr; cases hr) h
  · intro id db2 hdel
    have hdel2 : delete_note id db = Except.ok db2 := hdel
    unfold delete_note at hdel2
    split at hdel2
    · cases hdel2
    · injection hdel2 with h2
      rw [← h2]
      refine ⟨?_, ?_, ?_⟩
      · intro e he
        have := List.mem_filter.1 he
        simpa using this.2
      · intro v hv
        have := List.mem_filter.1 hv
        simpa using this.2
      · intro n hn
        have := List.mem_filter.1 hn
        simpa using this.2

set_option maxRecDepth 100000 in
/-- Witness for the amended C1 at a concrete successful trace. -/
theorem similarity_cache_invariant_amended_witness :
    runOps cexCos cexWitnessOps initialDb = some cexWitnessDb ∧
      cacheOrdered cexWitnessDb :=
  ⟨by decide,
   (similarity_cache_invariant_amended cexCos cexWitnessOps cexWitnessDb (by decide)).1⟩

set_option maxRecDepth 100000 in
/-- Counterexample to C1 as stated: after the successful trace that creates
and indexes notes "a" and "b", rebuilds the cache and then deletes "a",
the similarity cache still holds a row mentioning "a" although note "a"
is gone. -/
theorem delete_leaves_similarity_cache :
    ((runOps cexCos cexOps initialDb).map (fun db =>
      db.similarity_cache.any (fun r => r.note_id_a == "a" || r.note_id_b == "a") &&
        db.notes.all (fun n => n.id != "a"))) = some true := by
  decide

/-- Lookup after modifying the entry at a key. -/
theorem alookup_modify {α β : Type} [DecidableEq α] (m : List (α × β)) (k : α) (f : β → β) :
    alookup (m.map (fun kv => if kv.1 = k then (kv.1, f kv.2) else kv)) k =
      (alookup m k).map f := by
  induction m with
  | nil => rfl
  | cons kv rest ih =>
    by_cases h : kv.1 = k <;> simp [alookup, h, ih]

/-- Lookup of another key after modifying the entry at `k`. -/
theorem alookup_modify_ne {α β : Type} [DecidableEq α] (m : List (α × β)) (k k' : α)
    (f : β → β) (hne : k' ≠ k) :
    alookup (m.map (fun kv => if kv.1 = k then (kv.1, f kv.2) else kv)) k' =
      alookup m k' := by
  induction m with
  | nil => rfl
  | cons kv rest ih =>
    by_cases h : kv.1 = k
    · have h3 : kv.1 ≠ k' := by rw [h]; exact fun he => hne he.symm
      have h4 : ¬ k = k' := fun he => hne he.symm
      simp [alookup, h, h3, h4, ih]
    · by_cases h2 : kv.1 = k' <;> simp [alookup, h, h2, ih, hne]

/-- Lookup after appending a fresh binding. -/
theorem alookup_append_single {α β : Type} [DecidableEq α] (m : List (α × β)) (k k' : α)
    (v : β) :
    alookup (m ++ [(k, v)]) k' =
      match alookup m k' with
      | some e => some e
      | none => if k = k' then some v else none := by
  induction m with
  | nil => simp [alookup]
  | cons kv rest ih =>
    by_cases h : kv.1 = k' <;> simp [alookup, h, ih]

/-- The HashMap occupancy test agrees with lookup. -/
theorem any_key_eq_isSome {α β : Type} [DecidableEq α] (m : List (α × β)) (k : α) :
    (m.any (fun kv => kv.1 = k)) = (alookup m k).isSome := by
  induction m with
  | nil => rfl
  | cons kv rest ih =>
    by_cases h : kv.1 = k <;> simp [alookup, h, ih]

/-- Lookup at the touched key after `entry(k).and_modify(f).or_insert(v)`. -/
theorem alookup_rrfUpsert_self (m : List (String × RrfEntry)) (k : String)
    (f : RrfEntry → RrfEntry) (v : RrfEntry) :
    alookup (rrfUpsert m k f v) k =
      some (match alookup m k with
            | some e => f e
            | none => v) := by
  unfold rrfUpsert
  rw [any_key_eq_isSome]
  cases he : alookup m k with
  | some e =>
    simp only [Option.isSome, if_true]
    rw [alookup_modify, he]
    rfl
  | none =>
    simp only [Option.isSome, Bool.false_eq_true, if_false]
    rw [alookup_append_single, he]
    simp

/-- Lookup at an untouched key after `entry(k).and_modify(f).or_insert(v)`. -/
theorem alookup_rrfUpsert_ne (m : List (String × RrfEntry)) (k k' : String)
    (f : RrfEntry → RrfEntry) (v : RrfEntry) (hne : k' ≠ k) :
    alookup (rrfUpsert m k f v) k' = alookup m k' := by
  unfold rrfUpsert
  split
  · exact alookup_modify_ne m k k' f hne
  · rw [alookup_append_single]
    cases he : alookup m k' with
    | some e => rfl
    | none =>
      have h4 : ¬ k = k' := fun he2 => hne he2.symm
      simp [h4]

/-- Lookup after the full-text fusion loop: an id already in the map keeps
its payload and gains this list's total contribution; a fresh id present
in the list is inserted with the payload of its first occurrence and
match type "fulltext". -/
theorem ftsPass_lookup (l : List ScoredNote) (k0 : Nat)
    (m : List (String × RrfEntry)) (id : String) :
    alookup (ftsPass m l k0) id =
      match alookup m id, l.find? (fun r => r.id = id) with
      | some e, _ => some { e with score := e.score + rrfContrib l k0 id }
      | none, some r => some { score := rrfContrib l k0 id, title := r.title,
                               snippet := r.snippet, match_type := "fulltext" }
      | none, none => none := by
  induction l generalizing m k0 with
  | nil =>
    cases he : alookup m id with
    | some e => simp [ftsPass, rrfContrib, he]
    | none => simp [ftsPass, rrfContrib, he, List.find?]
  | cons r rs ih =>
    by_cases hid : r.id = id
    · rw [show ftsPass m (r :: rs) k0 = ftsPass (rrfUpsert m r.id
        (fun e => { e with score := e.score + 1 / (60 + (k0 : ℚ) + 1) })
        { score := 1 / (60 + (k0 : ℚ) + 1), title := r.title, snippet := r.snippet,
          match_type := "fulltext" }) rs (k0 + 1) from rfl]
      rw [ih]
      rw [hid, alookup_rrfUpsert_self]
      cases he : alookup m id with
      | some e =>
        simp only [he, List.find?, hid, rrfContrib, if_pos hid]
        cases e
        simp [add_assoc]
      | none =>
        simp only [he, List.find?, hid, rrfContrib, if_pos hid]
        simp [add_assoc]
    · rw [show ftsPass m (r :: rs) k0 = ftsPass (rrfUpsert m r.id
        (fun e => { e with score := e.score + 1 / (60 + (k0 : ℚ) + 1) })
        { score := 1 / (60 + (k0 : ℚ) + 1), title := r.title, snippet := r.snippet,
          match_type := "fulltext" }) rs (k0 + 1) from rfl]
      rw [ih]
      rw [alookup_rrfUpsert_ne _ _ _ _ _ (fun h => hid h.symm)]
      have hf : (r :: rs).find? (fun x => x.id = id) = rs.find? (fun x => x.id = id) := by
        simp [List.find?, hid]
      rw [hf]
      have hc : rrfContrib (r :: rs) k0 id = rrfContrib rs (k0 + 1) id := by
        simp [rrfContrib, hid]
      rw [hc]

/-- Lookup after the semantic fusion loop: an id already in the map gains
this list's contribution and flips "fulltext" to "both" exactly when the
id occurs in the list; a fresh id present in the list is inserted with
match type "semantic". -/
theorem semPass_lookup (l : List ScoredNote) (k0 : Nat)
    (m : List (String × RrfEntry)) (id : String) :
    alookup (semPass m l k0) id =
      match alookup m id, l.find? (fun r => r.id = id) with
      | some e, some _ =>
        some { e with
          score := e.score + rrfContrib l k0 id
          match_type := if e.match_type = "fulltext" then "both" else e.match_type }
      | some e, none => some { e with score := e.score + rrfContrib l k0 id }
      | none, some r => some { score := rrfContrib l k0 id, title := r.title,
                               snippet := r.snippet, match_type := "semantic" }
      | none, none => none := by
  induction l generalizing m k0 with
  | nil =>
    cases he : alookup m id with
    | some e => simp [semPass, rrfContrib, he, List.find?]
    | none => simp [semPass, rrfContrib, he, List.find?]
  | cons r rs ih =>
    by_cases hid : r.id = id
    · rw [show semPass m (r :: rs) k0 = semPass (rrfUpsert m r.id
        (fun e => { e with
          score := e.score + 1 / (60 + (k0 : ℚ) + 1)
          match_type := if e.match_type = "fulltext" then "both" else e.match_type })
        { score := 1 / (60 + (k0 : ℚ) + 1), title := r.title, snippet := r.snippet,
          match_type := "semantic" }) rs (k0 + 1) from rfl]
      rw [ih]
      rw [hid, alookup_rrfUpsert_self]
      cases he : alookup m id with
      | some e =>
        simp only [he, List.find?, hid, rrfContrib, if_pos hid, decide_True]
        cases hfr : rs.find? (fun x => x.id = id) with
        | some r2 =>
          cases e with
          | mk sc ti sn mt =>
            by_cases hmt : mt = "fulltext"
            · simp [hmt, add_assoc]
            · simp [hmt, add_assoc]
        | none =>
          cases e with
          | mk sc ti sn mt =>
            by_cases hmt : mt = "fulltext"
            · simp [hmt, add_assoc]
            · simp [hmt, add_assoc]
      | none =>
        simp only [he, List.find?, hid, rrfContrib, if_pos hid, decide_True]
        cases hfr : rs.find? (fun x => x.id = id) with
        | some r2 => simp [add_assoc]
        | none => simp [add_assoc]
    · rw [show semPass m (r :: rs) k0 = semPass (rrfUpsert m r.id
        (fun e => { e with
          score := e.score + 1 / (60 + (k0 : ℚ) + 1)
          match_type := if e.match_type = "fulltext" then "both" else e.match_type })
        { score := 1 / (60 + (k0 : ℚ) + 1), title := r.title, snippet := r.snippet,
          match_type := "semantic" }) rs (k0 + 1) from rfl]
      rw [ih]
      rw [alookup_rrfUpsert_ne _ _ _ _ _ (fun h => hid h.symm)]
      have hf : (r :: rs).find? (fun x => x.id = id) = rs.find? (fun x => x.id = id) := by
        simp [List.find?, hid]
      have hc : rrfContrib (r :: rs) k0 id = rrfContrib rs (k0 + 1) id := by
        simp [rrfContrib, hid]
      rw [hf, hc]

/-- Lookup misses exactly the keys outside the map. -/
theorem alookup_eq_none_iff {α β : Type} [DecidableEq α] (m : List (α × β)) (k : α) :
    alookup m k = none ↔ k ∉ m.map Prod.fst := by
  induction m with
  | nil => simp [alookup]
  | cons kv rest ih =>
    by_cases h : kv.1 = k
    · simp [alookup, h]
    · rw [alookup, if_neg h]
      simp only [List.map_cons, List.mem_cons, not_or]
      rw [ih]
      constructor
      · intro hn
        exact ⟨fun he => h he.symm, hn⟩
      · intro hn
        exact hn.2

/-- The fusion upsert keeps the keys duplicate-free. -/
theorem nodup_keys_rrfUpsert (m : List (String × RrfEntry)) (k : String)
    (f : RrfEntry → RrfEntry) (v : RrfEntry)
    (h : (m.map Prod.fst).Nodup) : ((rrfUpsert m k f v).map Prod.fst).Nodup := by
  unfold rrfUpsert
  split
  · have : (m.map (fun kv => if kv.1 = k then (kv.1, f kv.2) else kv)).map Prod.fst =
        m.map Prod.fst := by
      rw [List.map_map]
      apply List.map_congr_left
      intro kv _
      by_cases hk : kv.1 = k <;> simp [hk]
    rw [this]
    exact h
  · rename_i hany
    rw [any_key_eq_isSome] at hany
    have hk : k ∉ m.map Prod.fst := by
      rw [← alookup_eq_none_iff]
      cases he : alookup m k with
      | some e => rw [he] at hany; simp at hany
      | none => rfl
    simp only [List.map_append, List.map_cons, List.map_nil]
    refine List.Nodup.append h (List.nodup_singleton k) ?_
    intro a ha hb
    rcases List.mem_singleton.1 hb with rfl
    exact hk ha

/-- The full-text pass keeps the keys duplicate-free. -/
theorem nodup_keys_ftsPass (l : List ScoredNote) (k0 : Nat)
    (m : List (String × RrfEntry)) (h : (m.map Prod.fst).Nodup) :
    ((ftsPass m l k0).map Prod.fst).Nodup := by
  induction l generalizing m k0 with
  | nil => exact h
  | cons r rs ih => exact ih (k0 + 1) _ (nodup_keys_rrfUpsert _ _ _ _ h)

/-- The semantic pass keeps the keys duplicate-free. -/
theorem nodup_keys_semPass (l : List ScoredNote) (k0 : Nat)
    (m : List (String × RrfEntry)) (h : (m.map Prod.fst).Nodup) :
    ((semPass m l k0).map Prod.fst).Nodup := by
  induction l generalizing m k0 with
  | nil => exact h
  | cons r rs ih => exact ih (k0 + 1) _ (nodup_keys_rrfUpsert _ _ _ _ h)

/-- In a duplicate-free map, membership determines the lookup. -/
theorem alookup_of_mem {α β : Type} [DecidableEq α] (m : List (α × β)) (kv : α × β)
    (hnd : (m.map Prod.fst).Nodup) (hm : kv ∈ m) : alookup m kv.1 = some kv.2 := by
  induction m with
  | nil => cases hm
  | cons hd rest ih =>
    rcases List.mem_cons.1 hm with rfl | hm2
    · simp [alookup]
    · have hnd2 := (List.nodup_cons.1 hnd)
      have hne : hd.1 ≠ kv.1 := by
        intro he
        exact hnd2.1 (he ▸ List.mem_map_of_mem Prod.fst hm2)
      simp [alookup, hne, ih hnd2.2 hm2]

/-- A missing id contributes nothing to the fused score. -/
theorem rrfContrib_eq_zero (l : List ScoredNote) (k0 : Nat) (id : String)
    (h : id ∉ l.map ScoredNote.id) : rrfContrib l k0 id = 0 := by
  induction l generalizing k0 with
  | nil => rfl
  | cons r rs ih =>
    simp only [List.map_cons, List.mem_cons] at h
    push_neg at h
    have hne : ¬(r.id = id) := fun he => h.1 he.symm
    simp [rrfContrib, hne, ih (k0 + 1) h.2]

/-- The find used by the fusion characterizes id membership. -/
theorem find?_id_isSome (l : List ScoredNote) (id : String) :
    (l.find? (fun r => r.id = id)).isSome ↔ id ∈ l.map ScoredNote.id := by
  induction l with
  | nil => simp [List.find?]
  | cons r rs ih =>
    by_cases h : r.id = id
    · simp [List.find?, h]
    · have hd : (decide (r.id = id)) = false := by simp [h]
      simp only [List.find?, hd, List.map_cons, List.mem_cons]
      rw [ih]
      constructor
      · exact Or.inr
      · rintro (he | hm)
        · exact absurd he.symm h
        · exact hm

/-- Membership is preserved by the stable insertion. -/
theorem mem_insertScoreDesc (x y : SearchResultL) (l : List SearchResultL) :
    y ∈ insertScoreDesc x l ↔ y = x ∨ y ∈ l := by
  induction l with
  | nil => simp [insertScoreDesc]
  | cons z zs ih =>
    unfold insertScoreDesc
    split
    · simp only [List.mem_cons, ih]
      tauto
    · exact List.mem_cons

/-- The stable insertion preserves descending order. -/
theorem sorted_insertScoreDesc (x : SearchResultL) (l : List SearchResultL)
    (h : l.Pairwise (fun a b => b.score ≤ a.score)) :
    (insertScoreDesc x l).Pairwise (fun a b => b.score ≤ a.score) := by
  induction l with
  | nil => simp [insertScoreDesc]
  | cons z zs ih =>
    have hz := (List.pairwise_cons.1 h).1
    have hzs := (List.pairwise_cons.1 h).2
    unfold insertScoreDesc
    split
    · rename_i hle
      refine List.pairwise_cons.2 ⟨?_, ih hzs⟩
      intro y hy
      rcases (mem_insertScoreDesc x y zs).1 hy with rfl | hy2
      · exact hle
      · exact hz y hy2
    · rename_i hgt
      refine List.pairwise_cons.2 ⟨?_, h⟩
      intro y hy
      have hxz : z.score ≤ x.score := le_of_not_le hgt
      rcases List.mem_cons.1 hy with rfl | hy2
      · exact hxz
      · exact le_trans (hz y hy2) hxz

/-- The model sort returns a list sorted by descending score. -/
theorem sorted_sortScoreDesc (l : List SearchResultL) :
    (sortScoreDesc l).Pairwise (fun a b => b.score ≤ a.score) := by
  induction l with
  | nil => simp [sortScoreDesc]
  | cons x xs ih => exact sorted_insertScoreDesc x _ ih

/-- The model sort is a permutation as far as membership goes. -/
theorem mem_sortScoreDesc (y : SearchResultL) (l : List SearchResultL) :
    y ∈ sortScoreDesc l ↔ y ∈ l := by
  induction l with
  | nil => simp [sortScoreDesc]
  | cons x xs ih =>
    unfold sortScoreDesc
    rw [mem_insertScoreDesc, ih, List.mem_cons]

/-- C2: hybrid search runs the full-text and the semantic search each with
limit `2·limit` and fuses them with Reciprocal Rank Fusion: each result
at 1-based rank r of either list contributes `1/(60+r)` to its note's
fused score, contributions are summed per note id across both lists, the
match type is "both" exactly when the id appears in both lists
("fulltext"/"semantic" when it appears only in that one), the output is
sorted by fused score descending, and at most `limit` results are
returned. -/
theorem hybrid_search_rrf (ftsS semS : String → Nat → List ScoredNote)
    (q : String) (limit : Nat) (hq : trimR q ≠ "") :
    search ftsS semS q SearchMode.Hybrid limit =
      Except.ok (rrfCombine (ftsS (trimR q) (limit * 2)) (semS (trimR q) (limit * 2))
        limit) ∧
    (∀ F S : List ScoredNote, ∀ r ∈ rrfCombine F S limit,
      r.score = rrfContrib F 0 r.id + rrfContrib S 0 r.id ∧
      r.match_type = (if r.id ∈ F.map ScoredNote.id then
          (if r.id ∈ S.map ScoredNote.id then "both" else "fulltext")
        else "semantic") ∧
      (r.id ∈ F.map ScoredNote.id ∨ r.id ∈ S.map ScoredNote.id)) ∧
    (∀ F S : List ScoredNote,
      (rrfCombine F S limit).Pairwise (fun a b => b.score ≤ a.score)) ∧
    (∀ F S : List ScoredNote, (rrfCombine F S limit).length ≤ limit) := by
  refine ⟨?_, ?_, ?_, ?_⟩
  · unfold search hybrid_search
    rw [if_neg hq]
  · intro F S r hr
    have hnd : ((semPass (ftsPass [] F 0) S 0).map Prod.fst).Nodup :=
      nodup_keys_semPass S 0 _ (nodup_keys_ftsPass F 0 [] (by simp))
    simp only [rrfCombine] at hr
    replace hr := List.take_subset _ _ hr
    rw [mem_sortScoreDesc] at hr
    rcases List.mem_map.1 hr with ⟨kv, hkv, hkveq⟩
    have hlk := alookup_of_mem _ kv hnd hkv
    rw [semPass_lookup] at hlk
    rw [ftsPass_lookup] at hlk
    have hempty : alookup ([] : List (String × RrfEntry)) kv.1 = none := rfl
    rw [hempty] at hlk
    have hid : r.id = kv.1 := by rw [← hkveq]
    cases hF : F.find? (fun x => x.id = kv.1) with
    | some rF =>
      have hFm : kv.1 ∈ F.map ScoredNote.id := by
        rw [← find?_id_isSome, hF]; rfl
      cases hS : S.find? (fun x => x.id = kv.1) with
      | some rS =>
        have hSm : kv.1 ∈ S.map ScoredNote.id := by
          rw [← find?_id_isSome, hS]; rfl
        rw [hF, hS] at hlk
        simp only [Option.some.injEq] at hlk
        subst hkveq
        refine ⟨?_, ?_, ?_⟩
        · simp [← hlk]
        · simp [← hlk, hFm, hSm]
        · exact Or.inl hFm
      | none =>
        have hSm : kv.1 ∉ S.map ScoredNote.id := by
          rw [← find?_id_isSome, hS]; simp
        rw [hF, hS] at hlk
        simp only [Option.some.injEq] at hlk
        subst hkveq
        refine ⟨?_, ?_, ?_⟩
        · simp [← hlk]
        · simp [← hlk, hFm, hSm]
        · exact Or.inl hFm
    | none =>
      have hFm : kv.1 ∉ F.map ScoredNote.id := by
        rw [← find?_id_isSome, hF]; simp
      cases hS : S.find? (fun x => x.id = kv.1) with
      | some rS =>
        have hSm : kv.1 ∈ S.map ScoredNote.id := by
          rw [← find?_id_isSome, hS]; rfl
        rw [hF, hS] at hlk
        simp only [Option.some.injEq] at hlk
        subst hkveq
        refine ⟨?_, ?_, ?_⟩
        · simp [← hlk, rrfContrib_eq_zero F 0 kv.1 hFm]
        · simp [← hlk, hFm, hSm]
        · exact Or.inr hSm
      | none =>
        rw [hF, hS] at hlk
        cases hlk
  · intro F S
    unfold rrfCombine
    exact List.Pairwise.sublist (List.take_sublist _ _) (sorted_sortScoreDesc _)
  · intro F S
    unfold rrfCombine
    exact List.length_take_le _ _

/-- Witness for C2 at a concrete query and concrete oracle result lists. -/
theorem hybrid_search_rrf_witness :
    search (fun _ _ => [{ id := "n1", title := "T", snippet := "S", score := 1 }])
        (fun _ _ => []) "fruit" SearchMode.Hybrid 10 =
      Except.ok (rrfCombine [{ id := "n1", title := "T", snippet := "S", score := 1 }]
        [] 10) :=
  (hybrid_search_rrf
    (fun _ _ => [{ id := "n1", title := "T", snippet := "S", score := 1 }])
    (fun _ _ => []) "fruit" 10 (by decide)).1

/-- C9: for a fixed database state and threshold, `get_graph` returns the
same nodes (including cluster ids) and the same edges for every value of
the center argument, present or absent: the parameter is ignored. -/
theorem get_graph_center_irrelevant (db : Database) (center : Option String)
    (threshold : ℚ) :
    get_graph db center threshold = get_graph db none threshold := rfl

/-- Splitting an iterated parent walk. -/
theorem iterP_add (p : List Nat) (a b i : Nat) :
    iterP p (a + b) i = iterP p b (iterP p a i) := by
  induction a generalizing i with
  | zero => simp [iterP]
  | succ a ih =>
    have : a + 1 + b = (a + b) + 1 := by omega
    rw [this]
    show iterP p (a + b) (pstep p i) = iterP p b (iterP p a (pstep p i))
    exact ih (pstep p i)

/-- A root is a fixed point of the walk. -/
theorem iterP_root (p : List Nat) (r : Nat) (h : isRootP p r) :
    ∀ k, iterP p k r = r := by
  intro k
  induction k with
  | zero => rfl
  | succ k ih =>
    show iterP p k (pstep p r) = r
    rw [h]
    exact ih

/-- Two roots reached from the same start coincide. -/
theorem reaches_unique (p : List Nat) (j r1 r2 : Nat)
    (h1 : ReachesP p j r1) (h2 : ReachesP p j r2) : r1 = r2 := by
  obtain ⟨k1, hk1, hr1⟩ := h1
  obtain ⟨k2, hk2, hr2⟩ := h2
  rcases le_total k1 k2 with h | h
  · have : iterP p k2 j = r1 := by
      have hsplit : k2 = k1 + (k2 - k1) := by omega
      rw [hsplit, iterP_add, hk1, iterP_root p r1 hr1]
    rw [← hk2, this]
  · have : iterP p k1 j = r2 := by
      have hsplit : k1 = k2 + (k1 - k2) := by omega
      rw [hsplit, iterP_add, hk2, iterP_root p r2 hr2]
    rw [← hk1, this]

/-- Walking from a root goes nowhere. -/
theorem rootAux_of_root (fuel : Nat) (p : List Nat) (i : Nat) (h : isRootP p i) :
    rootAux fuel p i = i := by
  cases fuel with
  | zero => rfl
  | succ fuel =>
    have h2 : pstep p i = i := h
    simp [rootAux, h2]

/-- One unfolding of the bounded walk at a non-root. -/
theorem rootAux_step (fuel : Nat) (p : List Nat) (i : Nat) (h : ¬ isRootP p i) :
    rootAux (fuel + 1) p i = rootAux fuel p (pstep p i) := by
  have h2 : ¬ pstep p i = i := h
  simp [rootAux, h2]

/-- With enough fuel the bounded walk reaches a root. -/
theorem rootAux_reaches (fuel : Nat) (p : List Nat) (i : Nat)
    (h : ∃ k, k ≤ fuel ∧ isRootP p (iterP p k i)) :
    ReachesP p i (rootAux fuel p i) := by
  induction fuel generalizing i with
  | zero =>
    obtain ⟨k, hk, hr⟩ := h
    interval_cases k
    exact ⟨0, rfl, hr⟩
  | succ fuel ih =>
    by_cases hroot : isRootP p i
    · rw [rootAux_of_root _ _ _ hroot]
      exact ⟨0, rfl, hroot⟩
    · obtain ⟨k, hk, hr⟩ := h
      cases k with
      | zero => exact absurd hr hroot
      | succ k =>
        rw [rootAux_step _ _ _ hroot]
        have := ih (pstep p i) ⟨k, by omega, hr⟩
        obtain ⟨m, hm, hmr⟩ := this
        exact ⟨m + 1, hm, hmr⟩

/-- In a well-formed forest the walk from an in-range node stays in
range. -/
theorem iterP_lt (p : List Nat) (hwf : WfP p) (i : Nat) (hi : i < p.length) :
    ∀ k, iterP p k i < p.length := by
  intro k
  induction k generalizing i with
  | zero => exact hi
  | succ k ih =>
    show iterP p k (pstep p i) < p.length
    exact ih (pstep p i) (hwf.1 i hi)

/-- In a well-formed forest every node reaches a root within
`p.length` steps. -/
theorem wfp_reach (p : List Nat) (hwf : WfP p) (i : Nat) :
    ∃ k, k ≤ p.length ∧ isRootP p (iterP p k i) := by
  by_cases hi : i < p.length
  · by_contra hcon
    push_neg at hcon
    obtain ⟨hb, h, hdec⟩ := hwf
    have hnr : ∀ k ≤ p.length, ¬ isRootP p (iterP p k i) := by
      intro k hk
      exact hcon k hk
    have hmono : ∀ a d, 1 ≤ d → a + d ≤ p.length →
        h (iterP p (a + d) i) < h (iterP p a i) := by
      intro a d hd had
      induction d with
      | zero => omega
      | succ d ihd =>
        cases Nat.eq_or_lt_of_le hd with
        | inl h1 =>
          have hd0 : d = 0 := by omega
          subst hd0
          have hstep : iterP p (a + 1) i = pstep p (iterP p a i) := by
            have : a + 1 = a + 1 := rfl
            rw [iterP_add]
            rfl
          rw [hstep]
          exact hdec _ (hnr a (by omega))
        | inr h1 =>
          have ih2 := ihd (by omega) (by omega)
          have hstep : iterP p (a + (d + 1)) i = pstep p (iterP p (a + d) i) := by
            have he : a + (d + 1) = (a + d) + 1 := by omega
            rw [he, iterP_add]
            rfl
          rw [hstep]
          exact lt_trans (hdec _ (hnr (a + d) (by omega))) ih2
    have hinj : Set.InjOn (fun k => iterP p k i) (Finset.range (p.length + 1)) := by
      intro a ha b hb hab
      simp only [Finset.coe_range, Set.mem_Iio] at ha hb
      have hab2 : iterP p a i = iterP p b i := hab
      by_contra hne
      rcases Nat.lt_or_ge a b with h2 | h2
      · have := hmono a (b - a) (by omega) (by omega)
        rw [show a + (b - a) = b by omega] at this
        rw [hab2] at this
        exact lt_irrefl _ this
      · have h3 : b < a := by omega
        have := hmono b (a - b) (by omega) (by omega)
        rw [show b + (a - b) = a by omega] at this
        rw [hab2] at this
        exact lt_irrefl _ this
    have hmaps : ∀ k ∈ Finset.range (p.length + 1),
        (fun k => iterP p k i) k ∈ Finset.range p.length := by
      intro k _
      simp only [Finset.mem_range]
      exact iterP_lt p ⟨hb, h, hdec⟩ i hi k
    have := Finset.card_le_card_of_injOn _ hmaps hinj
    simp only [Finset.card_range] at this
    omega
  · refine ⟨0, by omega, ?_⟩
    show pstep p i = i
    unfold pstep
    exact List.getD_eq_default _ _ (by omega)

/-- The computed root is reached from its argument. -/
theorem rootD_reaches (p : List Nat) (hwf : WfP p) (i : Nat) :
    ReachesP p i (rootD p i) :=
  rootAux_reaches p.length p i (wfp_reach p hwf i)

/-- The computed root is a root. -/
theorem rootD_isRoot (p : List Nat) (hwf : WfP p) (i : Nat) :
    isRootP p (rootD p i) :=
  (rootD_reaches p hwf i).choose_spec.2

/-- Any reached root is the computed root. -/
theorem reaches_rootD (p : List Nat) (hwf : WfP p) (j r : Nat)
    (h : ReachesP p j r) : rootD p j = r :=
  reaches_unique p j _ r (rootD_reaches p hwf j) h

/-- The computed root of a root is itself. -/
theorem rootD_of_root (p : List Nat) (i : Nat) (h : isRootP p i) :
    rootD p i = i :=
  rootAux_of_root _ _ _ h

/-- In-range nodes have in-range roots. -/
theorem rootD_lt (p : List Nat) (hwf : WfP p) (i : Nat) (hi : i < p.length) :
    rootD p i < p.length := by
  obtain ⟨k, hk, _⟩ := rootD_reaches p hwf i
  rw [← hk]
  exact iterP_lt p hwf i hi k

/-- Taking one parent step does not change the root. -/
theorem rootD_pstep (p : List Nat) (hwf : WfP p) (i : Nat) :
    rootD p (pstep p i) = rootD p i := by
  by_cases hroot : isRootP p i
  · rw [hroot]
  · obtain ⟨k, hk, hr⟩ := rootD_reaches p hwf i
    cases k with
    | zero =>
      have : rootD p i = i := hk.symm
      rw [this] at hr
      exact absurd hr hroot
    | succ k =>
      have hre : ReachesP p (pstep p i) (rootD p i) := ⟨k, hk, hr⟩
      exact reaches_rootD p hwf _ _ hre

/-- Parent step after overwriting one entry. -/
theorem pstep_set (q : List Nat) (i v j : Nat) (hi : i < q.length) :
    pstep (q.set i v) j = if j = i then v else pstep q j := by
  unfold pstep
  by_cases h : j = i
  · subst h
    simp [List.getD, List.getElem?_set_self, hi]
  · simp [List.getD, List.getElem?_set_ne (fun he => h he.symm), h]

/-- The height of any node on a chain is bounded by the start. -/
theorem h_iterP_le (q : List Nat) (h : Nat → Nat)
    (hdec : ∀ i, ¬ isRootP q i → h (pstep q i) < h i) (k j : Nat) :
    h (iterP q k j) ≤ h j := by
  induction k generalizing j with
  | zero => exact le_refl _
  | succ k ih =>
    show h (iterP q k (pstep q j)) ≤ h j
    refine le_trans (ih (pstep q j)) ?_
    by_cases hr : isRootP q j
    · rw [hr]
    · exact le_of_lt (hdec j hr)

/-- A non-root node is strictly above its root. -/
theorem h_rootD_lt (q : List Nat) (hwf : WfP q) (h : Nat → Nat)
    (hdec : ∀ i, ¬ isRootP q i → h (pstep q i) < h i) (i : Nat)
    (hroot : ¬ isRootP q i) : h (rootD q i) < h i := by
  obtain ⟨k, hk, _⟩ := rootD_reaches q hwf i
  cases k with
  | zero =>
    exfalso
    have h0 : i = rootD q i := hk
    have hR2 := rootD_isRoot q hwf i
    rw [← h0] at hR2
    exact hroot hR2
  | succ k =>
    have hsh : iterP q (k + 1) i = iterP q k (pstep q i) := rfl
    rw [← hk, hsh]
    exact lt_of_le_of_lt (h_iterP_le q h hdec k (pstep q i)) (hdec i hroot)

/-- A non-root node lies inside the array. -/
theorem lt_length_of_not_root (q : List Nat) (i : Nat) (h : ¬ isRootP q i) :
    i < q.length := by
  by_contra hge
  exact h (List.getD_eq_default _ _ (by omega))

/-- Overwriting a non-root entry with its own root (path compression)
keeps the forest well-formed and changes no root. -/
theorem set_root_spec (q : List Nat) (hwf : WfP q) (i : Nat)
    (hroot : ¬ isRootP q i) :
    (q.set i (rootD q i)).length = q.length ∧
    WfP (q.set i (rootD q i)) ∧
    (∀ j, isRootP (q.set i (rootD q i)) j ↔ isRootP q j) ∧
    (∀ j, rootD (q.set i (rootD q i)) j = rootD q j) := by
  have hi : i < q.length := lt_length_of_not_root q i hroot
  have hR : isRootP q (rootD q i) := rootD_isRoot q hwf i
  have hRi : rootD q i ≠ i := by
    intro he
    exact hroot (he ▸ hR)
  have hstep : ∀ j, pstep (q.set i (rootD q i)) j =
      if j = i then rootD q i else pstep q j := fun j => pstep_set q i _ j hi
  have hlen : (q.set i (rootD q i)).length = q.length := List.length_set q i _
  have hrootiff : ∀ j, isRootP (q.set i (rootD q i)) j ↔ isRootP q j := by
    intro j
    unfold isRootP
    rw [hstep j]
    by_cases hj : j = i
    · subst hj
      constructor
      · intro he
        rw [if_pos rfl] at he
        exact absurd he hRi
      · intro he
        exact absurd he hroot
    · rw [if_neg hj]
  have hwf2 : WfP (q.set i (rootD q i)) := by
    obtain ⟨hb, h, hdec⟩ := hwf
    constructor
    · intro j hj
      rw [hlen] at hj
      rw [hstep j, hlen]
      by_cases he : j = i
      · rw [if_pos he]
        exact rootD_lt q ⟨hb, h, hdec⟩ i hi
      · rw [if_neg he]
        exact hb j hj
    · refine ⟨h, ?_⟩
      intro j hj
      rw [(hrootiff j)] at hj
      rw [hstep j]
      by_cases he : j = i
      · rw [if_pos he, he]
        exact h_rootD_lt q ⟨hb, h, hdec⟩ h hdec i hroot
      · rw [if_neg he]
        exact hdec j hj
  refine ⟨hlen, hwf2, hrootiff, ?_⟩
  have hreach : ∀ k j, isRootP q (iterP q k j) → iterP q k j = rootD q j →
      ReachesP (q.set i (rootD q i)) j (rootD q j) := by
    intro k
    induction k with
    | zero =>
      intro j hr he
      have hjr : j = rootD q j := he
      refine ⟨0, hjr, ?_⟩
      rw [← hjr]
      exact (hrootiff j).2 hr
    | succ k ih =>
      intro j hr he
      by_cases hjroot : isRootP q j
      · have hjr : rootD q j = j := rootD_of_root q j hjroot
        refine ⟨0, ?_, ?_⟩
        · exact hjr.symm
        · rw [hjr]
          exact (hrootiff j).2 hjroot
      · by_cases hji : j = i
        · refine ⟨1, ?_, ?_⟩
          · show iterP (q.set i (rootD q i)) 0 (pstep (q.set i (rootD q i)) j) =
              rootD q j
            rw [hstep j, if_pos hji, hji]
            rfl
          · rw [hji]
            exact (hrootiff _).2 hR
        · have he2 : iterP q k (pstep q j) = rootD q (pstep q j) := by
            rw [rootD_pstep q hwf j]
            exact he
          have hr2 : isRootP q (iterP q k (pstep q j)) := hr
          obtain ⟨m, hm, hmr⟩ := ih (pstep q j) hr2 he2
          rw [rootD_pstep q hwf j] at hm hmr
          refine ⟨m + 1, ?_, hmr⟩
          show iterP (q.set i (rootD q i)) m (pstep (q.set i (rootD q i)) j) =
            rootD q j
          rw [hstep j, if_neg hji]
          exact hm
  intro j
  obtain ⟨k, hk, hr⟩ := rootD_reaches q hwf j
  exact reaches_rootD _ hwf2 j _ (hreach k j (hk.symm ▸ hr) hk)

/-- The compressing find returns the root and preserves the forest's
length, well-formedness, rootness and root assignment. -/
theorem ufFind_spec (fuel : Nat) (p : List Nat) (i : Nat) (hwf : WfP p)
    (h : ∃ k, k ≤ fuel ∧ isRootP p (iterP p k i)) :
    (ufFind fuel p i).1 = rootD p i ∧
    (ufFind fuel p i).2.length = p.length ∧
    WfP (ufFind fuel p i).2 ∧
    (∀ j, isRootP (ufFind fuel p i).2 j ↔ isRootP p j) ∧
    (∀ j, rootD (ufFind fuel p i).2 j = rootD p j) := by
  induction fuel generalizing i with
  | zero =>
    obtain ⟨k, hk, hr⟩ := h
    interval_cases k
    exact ⟨(rootD_of_root p i hr).symm, rfl, hwf, fun j => Iff.rfl, fun j => rfl⟩
  | succ fuel ih =>
    by_cases hroot : isRootP p i
    · have hroot2 : p.getD i i = i := hroot
      have hu : ufFind (fuel + 1) p i = (i, p) := by
        show (if p.getD i i = i then (i, p)
            else match ufFind fuel p (p.getD i i) with
              | (r, p2) => (r, p2.set i r)) = (i, p)
        rw [if_pos hroot2]
      rw [hu]
      exact ⟨(rootD_of_root p i hroot).symm, rfl, hwf, fun j => Iff.rfl, fun j => rfl⟩
    · have hroot2 : ¬ p.getD i i = i := hroot
      obtain ⟨k, hk, hr⟩ := h
      cases k with
      | zero => exact absurd hr hroot
      | succ k =>
        obtain ⟨h1, h2, h3, h4, h5⟩ := ih (pstep p i) ⟨k, by omega, hr⟩
        rcases hfp : ufFind fuel p (pstep p i) with ⟨r, p2⟩
        rw [hfp] at h1 h2 h3 h4 h5
        have hu : ufFind (fuel + 1) p i = (r, p2.set i r) := by
          show (if p.getD i i = i then (i, p)
              else match ufFind fuel p (p.getD i i) with
                | (r, p2) => (r, p2.set i r)) = (r, p2.set i r)
          rw [if_neg hroot2]
          have hfp2 : ufFind fuel p (p.getD i i) = (r, p2) := hfp
          rw [hfp2]
        have h1' : r = rootD p i := by
          have hx : r = rootD p (pstep p i) := h1
          rw [hx, rootD_pstep p hwf i]
        have h2' : p2.length = p.length := h2
        have h3' : WfP p2 := h3
        have h4' : ∀ j, isRootP p2 j ↔ isRootP p j := fun j => h4 j
        have h5' : ∀ j, rootD p2 j = rootD p j := fun j => h5 j
        have hroot3 : ¬ isRootP p2 i := fun hh => hroot ((h4' i).1 hh)
        obtain ⟨s1, s2, s3, s4⟩ := set_root_spec p2 h3' i hroot3
        have hreq2 : r = rootD p2 i := by rw [h1', ← h5' i]
        rw [hu, hreq2]
        refine ⟨?_, ?_, ?_, ?_, ?_⟩
        · show rootD p2 i = rootD p i
          exact h5' i
        · show (p2.set i (rootD p2 i)).length = p.length
          rw [s1, h2']
        · exact s2
        · intro j
          exact (s3 j).trans (h4' j)
        · intro j
          exact (s4 j).trans (h5' j)

/-- Grafting the root `ra` under the distinct root `rb` keeps the forest
well-formed and redirects exactly the nodes rooted at `ra`. -/
theorem set_link_spec (q : List Nat) (hwf : WfP q) (ra rb : Nat)
    (hra : isRootP q ra) (hrb : isRootP q rb) (hne : ra ≠ rb)
    (hralt : ra < q.length) (hrblt : rb < q.length) :
    (q.set ra rb).length = q.length ∧ WfP (q.set ra rb) ∧
    (∀ j, rootD (q.set ra rb) j = if rootD q j = ra then rb else rootD q j) := by
  have hstep : ∀ j, pstep (q.set ra rb) j = if j = ra then rb else pstep q j :=
    fun j => pstep_set q ra rb j hralt
  have hlen : (q.set ra rb).length = q.length := List.length_set q ra rb
  have hrbroot : isRootP (q.set ra rb) rb := by
    show pstep (q.set ra rb) rb = rb
    rw [hstep rb, if_neg (fun he => hne he.symm)]
    exact hrb
  have hrootkeep : ∀ j, j ≠ ra → isRootP q j → isRootP (q.set ra rb) j := by
    intro j hj hr
    show pstep (q.set ra rb) j = j
    rw [hstep j, if_neg hj]
    exact hr
  have hwf2 : WfP (q.set ra rb) := by
    obtain ⟨hb, h, hdec⟩ := hwf
    constructor
    · intro j hj
      rw [hlen] at hj
      rw [hstep j, hlen]
      by_cases he : j = ra
      · rw [if_pos he]
        exact hrblt
      · rw [if_neg he]
        exact hb j hj
    · refine ⟨fun x => if rootD q x = ra then h x + h rb + 1 else h x, ?_⟩
      intro j hj
      rw [hstep j]
      by_cases he : j = ra
      · rw [if_pos he, he]
        have h1 : rootD q ra = ra := rootD_of_root q ra hra
        have h2 : rootD q rb = rb := rootD_of_root q rb hrb
        show (if rootD q rb = ra then h rb + h rb + 1 else h rb) <
          (if rootD q ra = ra then h ra + h rb + 1 else h ra)
        rw [h1, if_pos rfl, h2, if_neg (fun hh : rb = ra => hne hh.symm)]
        omega
      · rw [if_neg he]
        have hjnr : ¬ isRootP q j := by
          intro hr
          apply hj
          exact hrootkeep j he hr
        have hsame : rootD q (pstep q j) = rootD q j :=
          rootD_pstep q ⟨hb, h, hdec⟩ j
        show (if rootD q (pstep q j) = ra then h (pstep q j) + h rb + 1
            else h (pstep q j)) <
          (if rootD q j = ra then h j + h rb + 1 else h j)
        rw [hsame]
        by_cases hbr : rootD q j = ra
        · rw [if_pos hbr, if_pos hbr]
          have := hdec j hjnr
          omega
        · rw [if_neg hbr, if_neg hbr]
          exact hdec j hjnr
  refine ⟨hlen, hwf2, ?_⟩
  have hreach : ∀ k j, isRootP q (iterP q k j) → iterP q k j = rootD q j →
      ReachesP (q.set ra rb) j (if rootD q j = ra then rb else rootD q j) := by
    intro k
    induction k with
    | zero =>
      intro j hr he
      have hjr : j = rootD q j := he
      by_cases hja : rootD q j = ra
      · rw [if_pos hja]
        refine ⟨1, ?_, hrbroot⟩
        show iterP (q.set ra rb) 0 (pstep (q.set ra rb) j) = rb
        rw [hstep j, if_pos (hjr.trans hja)]
        rfl
      · rw [if_neg hja]
        refine ⟨0, hjr, ?_⟩
        rw [← hjr]
        refine hrootkeep j ?_ hr
        intro hje
        exact hja (hjr ▸ hje ▸ rfl)
    | succ k ih =>
      intro j hr he
      by_cases hjroot : isRootP q j
      · have hjr : rootD q j = j := rootD_of_root q j hjroot
        by_cases hja : rootD q j = ra
        · rw [if_pos hja]
          refine ⟨1, ?_, hrbroot⟩
          show iterP (q.set ra rb) 0 (pstep (q.set ra rb) j) = rb
          rw [hstep j, if_pos (hjr.symm.trans hja)]
          rfl
        · rw [if_neg hja]
          refine ⟨0, hjr.symm, ?_⟩
          rw [hjr]
          refine hrootkeep j ?_ hjroot
          intro hje
          exact hja (hjr.trans hje)
      · have hjne : j ≠ ra := by
          intro hje
          exact hjroot (hje ▸ hra)
        have he2 : iterP q k (pstep q j) = rootD q (pstep q j) := by
          rw [rootD_pstep q hwf j]
          exact he
        have hr2 : isRootP q (iterP q k (pstep q j)) := hr
        obtain ⟨m, hm, hmr⟩ := ih (pstep q j) hr2 he2
        rw [rootD_pstep q hwf j] at hm hmr
        refine ⟨m + 1, ?_, hmr⟩
        show iterP (q.set ra rb) m (pstep (q.set ra rb) j) =
          if rootD q j = ra then rb else rootD q j
        rw [hstep j, if_neg hjne]
        exact hm
  intro j
  obtain ⟨k, hk, hr⟩ := rootD_reaches q hwf j
  exact reaches_rootD _ hwf2 j _ (hreach k j (hk.symm ▸ hr) hk)

/-- The union of two in-range nodes merges exactly their two classes. -/
theorem ufUnion_spec (p : List Nat) (a b : Nat) (hwf : WfP p)
    (ha : a < p.length) (hb : b < p.length) :
    (ufUnion p a b).length = p.length ∧ WfP (ufUnion p a b) ∧
    (∀ x y, rootD (ufUnion p a b) x = rootD (ufUnion p a b) y ↔
      (rootD p x = rootD p y ∨
       (rootD p x = rootD p a ∧ rootD p y = rootD p b) ∨
       (rootD p x = rootD p b ∧ rootD p y = rootD p a))) := by
  obtain ⟨f1, f2, f3, f4, f5⟩ := ufFind_spec p.length p a hwf (wfp_reach p hwf a)
  obtain ⟨g1, g2, g3, g4, g5⟩ := ufFind_spec (ufFind p.length p a).2.length
    (ufFind p.length p a).2 b f3 (wfp_reach _ f3 b)
  have hu : ufUnion p a b =
      (if (ufFind p.length p a).1 ≠ (ufFind (ufFind p.length p a).2.length
          (ufFind p.length p a).2 b).1 then
        (ufFind (ufFind p.length p a).2.length (ufFind p.length p a).2 b).2.set
          (ufFind p.length p a).1
          (ufFind (ufFind p.length p a).2.length (ufFind p.length p a).2 b).1
      else (ufFind (ufFind p.length p a).2.length (ufFind p.length p a).2 b).2) := by
    unfold ufUnion
    rfl
  have hrb2 : (ufFind (ufFind p.length p a).2.length (ufFind p.length p a).2 b).1 =
      rootD p b := by
    rw [g1, f5 b]
  by_cases hcase : (ufFind p.length p a).1 =
      (ufFind (ufFind p.length p a).2.length (ufFind p.length p a).2 b).1
  · have hab : rootD p a = rootD p b := by
      rw [← f1, ← hrb2]
      exact hcase
    rw [hu, if_neg (by simpa using hcase)]
    refine ⟨g2.trans f2, g3, ?_⟩
    intro x y
    have hx := (g5 x).trans (f5 x)
    have hy := (g5 y).trans (f5 y)
    rw [hx, hy]
    constructor
    · exact Or.inl
    · rintro (he | ⟨hxa, hyb⟩ | ⟨hxb, hya⟩)
      · exact he
      · rw [hxa, hyb, hab]
      · rw [hxb, hya, hab]
  · rw [hu, if_pos (by simpa using hcase)]
    have hraroot : isRootP (ufFind (ufFind p.length p a).2.length
        (ufFind p.length p a).2 b).2 (ufFind p.length p a).1 := by
      rw [f1]
      refine (g4 _).2 ?_
      refine (f4 _).2 ?_
      exact rootD_isRoot p hwf a
    have hrbroot : isRootP (ufFind (ufFind p.length p a).2.length
        (ufFind p.length p a).2 b).2
        (ufFind (ufFind p.length p a).2.length (ufFind p.length p a).2 b).1 := by
      rw [hrb2]
      refine (g4 _).2 ?_
      refine (f4 _).2 ?_
      exact rootD_isRoot p hwf b
    have hlen2 : (ufFind (ufFind p.length p a).2.length (ufFind p.length p a).2 b).2.length =
        p.length := g2.trans f2
    obtain ⟨s1, s2, s3⟩ := set_link_spec _ g3 _ _ hraroot hrbroot hcase
      (by rw [hlen2, f1]; exact rootD_lt p hwf a ha)
      (by rw [hlen2, hrb2]; exact rootD_lt p hwf b hb)
    refine ⟨s1.trans hlen2, s2, ?_⟩
    intro x y
    rw [s3 x, s3 y]
    have hx := (g5 x).trans (f5 x)
    have hy := (g5 y).trans (f5 y)
    rw [hx, hy, f1, hrb2]
    by_cases hxa : rootD p x = rootD p a <;> by_cases hya : rootD p y = rootD p a
    · rw [if_pos hxa, if_pos hya]
      simp [hxa, hya]
    · rw [if_pos hxa, if_neg hya]
      constructor
      · intro he
        exact Or.inr (Or.inl ⟨hxa, he.symm⟩)
      · rintro (he | ⟨hxa2, hyb⟩ | ⟨hxb, hya2⟩)
        · exact absurd (he ▸ hxa) hya
        · exact hyb.symm
        · exact absurd hya2 hya
    · rw [if_neg hxa, if_pos hya]
      constructor
      · intro he
        exact Or.inr (Or.inr ⟨he, hya⟩)
      · rintro (he | ⟨hxa2, hyb⟩ | ⟨hxb, hya2⟩)
        · exact absurd (he.trans hya) hxa
        · exact absurd hxa2 hxa
        · exact hxb
    · rw [if_neg hxa, if_neg hya]
      constructor
      · exact Or.inl
      · rintro (he | ⟨hxa2, hyb⟩ | ⟨hxb, hya2⟩)
        · exact he
        · exact absurd hxa2 hxa
        · exact absurd hya2 hya

/-- Monotonicity of the equivalence closure. -/
theorem eqvGen_mono {α : Type} {r s : α → α → Prop} (h : ∀ a b, r a b → s a b)
    {x y : α} (hg : Relation.EqvGen r x y) : Relation.EqvGen s x y := by
  induction hg with
  | rel a b hab => exact Relation.EqvGen.rel a b (h a b hab)
  | refl a => exact Relation.EqvGen.refl a
  | symm a b _ ih => exact Relation.EqvGen.symm a b ih
  | trans a b c _ _ ih1 ih2 => exact Relation.EqvGen.trans a b c ih1 ih2

/-- The equivalence closure respects pointwise equivalence of relations. -/
theorem eqvGen_congr {α : Type} {r s : α → α → Prop} (h : ∀ a b, r a b ↔ s a b)
    {x y : α} : Relation.EqvGen r x y ↔ Relation.EqvGen s x y :=
  ⟨eqvGen_mono (fun a b => (h a b).1), eqvGen_mono (fun a b => (h a b).2)⟩

/-- The equivalence closure is the least equivalence containing the
relation. -/
theorem eqvGen_lift {α : Type} {r S : α → α → Prop}
    (hrefl : ∀ a, S a a) (hsymm : ∀ a b, S a b → S b a)
    (htrans : ∀ a b c, S a b → S b c → S a c)
    (h : ∀ a b, r a b → S a b) {x y : α} (hg : Relation.EqvGen r x y) : S x y := by
  induction hg with
  | rel a b hab => exact h a b hab
  | refl a => exact hrefl a
  | symm a b _ ih => exact hsymm a b ih
  | trans a b c _ _ ih1 ih2 => exact htrans a b c ih1 ih2

/-- The equivalence closure of the empty relation is equality. -/
theorem eqvGen_false {α : Type} {x y : α}
    (hg : Relation.EqvGen (fun _ _ => False) x y) : x = y :=
  eqvGen_lift (fun _ => rfl) (fun _ _ h => h.symm) (fun _ _ _ h1 h2 => h1.trans h2)
    (fun _ _ h => h.elim) hg

/-- Mapping a chain of the equivalence closure through a function. -/
theorem eqvGen_map {α β : Type} {r : α → α → Prop} {s : β → β → Prop} (f : α → β)
    (h : ∀ a b, r a b → s (f a) (f b)) {x y : α} (hg : Relation.EqvGen r x y) :
    Relation.EqvGen s (f x) (f y) := by
  induction hg with
  | rel a b hab => exact Relation.EqvGen.rel _ _ (h a b hab)
  | refl a => exact Relation.EqvGen.refl _
  | symm a b _ ih => exact Relation.EqvGen.symm _ _ ih
  | trans a b c _ _ ih1 ih2 => exact Relation.EqvGen.trans _ _ _ ih1 ih2

/-- Two distinct elements related by the equivalence closure are both
incident to the base relation. -/
theorem eqvGen_touch {α : Type} {r : α → α → Prop} {x y : α}
    (hg : Relation.EqvGen r x y) :
    x = y ∨ ((∃ z, r x z ∨ r z x) ∧ (∃ z, r y z ∨ r z y)) := by
  induction hg with
  | rel a b hab => exact Or.inr ⟨⟨b, Or.inl hab⟩, ⟨a, Or.inr hab⟩⟩
  | refl a => exact Or.inl rfl
  | symm a b _ ih =>
    rcases ih with h | ⟨h1, h2⟩
    · exact Or.inl h.symm
    · exact Or.inr ⟨h2, h1⟩
  | trans a b c _ _ ih1 ih2 =>
    rcases ih1 with h1 | ⟨ta, tb⟩
    · rcases ih2 with h2 | ⟨tb, tc⟩
      · exact Or.inl (h1.trans h2)
      · exact Or.inr ⟨h1 ▸ tb, tc⟩
    · rcases ih2 with h2 | ⟨tb2, tc⟩
      · exact Or.inr ⟨ta, h2 ▸ tb⟩
      · exact Or.inr ⟨ta, tc⟩

/-- `indexOfN` ignores a tail extension for present elements. -/
theorem indexOfN_append_mem (F G : List Nat) (x : Nat) (hx : x ∈ F) :
    indexOfN (F ++ G) x = indexOfN F x := by
  induction F with
  | nil => cases hx
  | cons a F ih =>
    by_cases h : a = x
    · simp [indexOfN, h]
    · have hx2 : x ∈ F := by
        rcases List.mem_cons.1 hx with h2 | h2
        · exact absurd h2.symm h
        · exact h2
      simp [indexOfN, h, ih hx2]

/-- `indexOfN` of a freshly appended element is the prefix length. -/
theorem indexOfN_append_self (F G : List Nat) (x : Nat) (hx : x ∉ F) :
    indexOfN (F ++ x :: G) x = F.length := by
  induction F with
  | nil => simp [indexOfN]
  | cons a F ih =>
    have ha : ¬ a = x := fun h => hx (List.mem_cons.2 (Or.inl h.symm))
    have hx2 : x ∉ F := fun h => hx (List.mem_cons.2 (Or.inr h))
    simp [indexOfN, ha, ih hx2]

/-- `indexOfN` points at the element it indexes. -/
theorem indexOfN_getD (l : List Nat) (x : Nat) (hx : x ∈ l) :
    l.getD (indexOfN l x) 0 = x := by
  induction l with
  | nil => cases hx
  | cons a l ih =>
    by_cases h : a = x
    · simp [indexOfN, h]
    · have hx2 : x ∈ l := by
        rcases List.mem_cons.1 hx with h2 | h2
        · exact absurd h2.symm h
        · exact h2
      simp only [indexOfN, if_neg h, List.getD_cons_succ]
      exact ih hx2

/-- `indexOfN` is injective on the members of the list. -/
theorem indexOfN_inj (l : List Nat) (x y : Nat) (hx : x ∈ l) (hy : y ∈ l)
    (h : indexOfN l x = indexOfN l y) : x = y := by
  have h1 := indexOfN_getD l x hx
  have h2 := indexOfN_getD l y hy
  rw [← h1, ← h2, h]

/-- Membership in the index list. -/
theorem mem_idxList (i m x : Nat) : x ∈ idxList i m ↔ i ≤ x ∧ x < i + m := by
  induction m generalizing i with
  | zero =>
    simp only [idxList, List.not_mem_nil, false_iff]
    omega
  | succ m ih =>
    simp only [idxList, List.mem_cons, ih (i + 1)]
    omega

/-- Membership through `firstOccAux`. -/
theorem mem_firstOccAux (l : List Nat) (acc : List Nat) (x : Nat) :
    x ∈ firstOccAux acc l ↔ x ∈ acc ∨ x ∈ l := by
  induction l generalizing acc with
  | nil => simp [firstOccAux]
  | cons a l ih =>
    rw [firstOccAux]
    by_cases h : a ∈ acc
    · rw [if_pos h, ih]
      constructor
      · rintro (h1 | h1)
        · exact Or.inl h1
        · exact Or.inr (List.mem_cons_of_mem a h1)
      · rintro (h1 | h1)
        · exact Or.inl h1
        · rcases List.mem_cons.1 h1 with h2 | h2
          · exact Or.inl (h2 ▸ h)
          · exact Or.inr h2
    · rw [if_neg h, ih]
      simp only [List.mem_append, List.mem_cons, List.mem_singleton]
      tauto

/-- `firstOccAux` of a duplicate-free accumulator stays duplicate-free. -/
theorem nodup_firstOccAux (l : List Nat) (acc : List Nat) (h : acc.Nodup) :
    (firstOccAux acc l).Nodup := by
  induction l generalizing acc with
  | nil => exact h
  | cons a l ih =>
    rw [firstOccAux]
    by_cases ha : a ∈ acc
    · rw [if_pos ha]
      exact ih acc h
    · rw [if_neg ha]
      refine ih _ ?_
      rw [List.nodup_append]
      exact ⟨h, List.nodup_singleton a, fun x hx hx2 => ha ((List.mem_singleton.1 hx2) ▸ hx)⟩

/-- An in-range `getD` is a member. -/
theorem getD_mem_of_lt {α : Type} (l : List α) (d : α) (j : Nat)
    (hj : j < l.length) : l.getD j d ∈ l := by
  rw [List.getD_eq_getElem l d hj]
  exact List.getElem_mem hj

/-- `indexOfS` points at the element it indexes and is in range. -/
theorem getD_indexOfS (ids : List String) (s : String) (hs : s ∈ ids) :
    ids.getD (indexOfS ids s) "" = s ∧ indexOfS ids s < ids.length := by
  induction ids with
  | nil => cases hs
  | cons a ids ih =>
    by_cases h : a = s
    · simp [indexOfS, h]
    · have hs2 : s ∈ ids := by
        rcases List.mem_cons.1 hs with h2 | h2
        · exact absurd h2.symm h
        · exact h2
      obtain ⟨ih1, ih2⟩ := ih hs2
      refine ⟨?_, ?_⟩
      · simp only [indexOfS, if_neg h, List.getD_cons_succ]
        exact ih1
      · simp only [indexOfS, if_neg h, List.length_cons]
        omega

/-- On a duplicate-free list, `indexOfS` inverts indexing. -/
theorem indexOfS_getD (ids : List String) (hnd : ids.Nodup) (j : Nat)
    (hj : j < ids.length) : indexOfS ids (ids.getD j "") = j := by
  induction ids generalizing j with
  | nil => simp at hj
  | cons a ids ih =>
    cases j with
    | zero => simp [indexOfS]
    | succ j =>
      have hj2 : j < ids.length := by
        simp only [List.length_cons] at hj
        omega
      have hmem : ids.getD j "" ∈ ids := getD_mem_of_lt ids "" j hj2
      have hne : ¬ a = ids.getD j "" :=
        fun h => (List.nodup_cons.1 hnd).1 (h ▸ hmem)
      simp only [List.getD_cons_succ, indexOfS, if_neg hne,
        ih (List.nodup_cons.1 hnd).2 j hj2]

/-- Unfolding `seenRoots` as a first-occurrence scan of the root images
of the processed indices. -/
theorem seenRoots_eq (rest : List String) (i : Nat) (ρ : Nat → Nat)
    (F : List Nat) :
    seenRoots rest i ρ F = firstOccAux F ((idxList i rest.length).map ρ) := by
  induction rest generalizing i F with
  | nil => rfl
  | cons id rest ih =>
    show seenRoots rest (i + 1) ρ (if ρ i ∈ F then F else F ++ [ρ i]) = _
    rw [List.length_cons]
    show _ = firstOccAux F ((i :: idxList (i + 1) rest.length).map ρ)
    rw [List.map_cons, firstOccAux]
    exact ih (i + 1) _

/-- The seen-roots list only grows. -/
theorem seenRoots_prefix (rest : List String) (i : Nat) (ρ : Nat → Nat)
    (F : List Nat) : ∃ G, seenRoots rest i ρ F = F ++ G := by
  induction rest generalizing i F with
  | nil => exact ⟨[], (List.append_nil F).symm⟩
  | cons id rest ih =>
    show ∃ G, seenRoots rest (i + 1) ρ (if ρ i ∈ F then F else F ++ [ρ i]) = F ++ G
    by_cases h : ρ i ∈ F
    · rw [if_pos h]
      exact ih (i + 1) F
    · rw [if_neg h]
      obtain ⟨G, hG⟩ := ih (i + 1) (F ++ [ρ i])
      exact ⟨[ρ i] ++ G, by rw [hG, List.append_assoc]⟩

/-- Lookup in a consecutive numbering. -/
theorem alookup_numberFrom (F : List Nat) (k : Nat) (r : Nat) :
    alookup (numberFrom k F) r =
      if r ∈ F then some (k + indexOfN F r) else none := by
  induction F generalizing k with
  | nil => simp [numberFrom, alookup]
  | cons a F ih =>
    rw [numberFrom]
    by_cases h : a = r
    · subst h
      simp [alookup, indexOfN]
    · rw [show alookup ((a, k) :: numberFrom (k + 1) F) r =
          alookup (numberFrom (k + 1) F) r from if_neg h, ih (k + 1)]
      by_cases hm : r ∈ F
      · rw [if_pos hm, if_pos (List.mem_cons.2 (Or.inr hm))]
        simp only [indexOfN, if_neg h]
        congr 1
        omega
      · rw [if_neg hm, if_neg (fun hh => by
          rcases List.mem_cons.1 hh with h2 | h2
          · exact h h2.symm
          · exact hm h2)]

/-- The keys of a consecutive numbering are the numbered list. -/
theorem numberFrom_fst (F : List Nat) (k : Nat) :
    (numberFrom k F).map Prod.fst = F := by
  induction F generalizing k with
  | nil => rfl
  | cons a F ih =>
    rw [numberFrom, List.map_cons, ih (k + 1)]

/-- Numbering a list extended by one element. -/
theorem numberFrom_append (F : List Nat) (k x : Nat) :
    numberFrom k (F ++ [x]) = numberFrom k F ++ [(x, k + F.length)] := by
  induction F generalizing k with
  | nil => simp [numberFrom]
  | cons a F ih =>
    rw [List.cons_append, numberFrom, numberFrom, ih (k + 1), List.cons_append,
      List.length_cons]
    have : k + 1 + F.length = k + (F.length + 1) := by omega
    rw [this]

/-- A duplicate-free list maps through its own `indexOfN` to the range. -/
theorem map_indexOfN_self (F : List Nat) (hnd : F.Nodup) :
    F.map (indexOfN F) = List.range F.length := by
  induction F with
  | nil => rfl
  | cons a F ih =>
    have ha : a ∉ F := (List.nodup_cons.1 hnd).1
    have hF : F.Nodup := (List.nodup_cons.1 hnd).2
    rw [List.map_cons]
    have h0 : indexOfN (a :: F) a = 0 := by simp [indexOfN]
    have ht : F.map (indexOfN (a :: F)) = (F.map (indexOfN F)).map (· + 1) := by
      rw [List.map_map]
      refine List.map_congr_left ?_
      intro x hx
      have hne : ¬ a = x := fun h => ha (h ▸ hx)
      simp [indexOfN, hne]
    rw [h0, ht, ih hF, List.length_cons, List.range_succ_eq_map]

/-- A first-occurrence scan commutes with an injective map. -/
theorem firstOccAux_map_inj (f : Nat → Nat) (l acc : List Nat)
    (hinj : ∀ x ∈ acc ++ l, ∀ y ∈ acc ++ l, f x = f y → x = y) :
    firstOccAux (acc.map f) (l.map f) = (firstOccAux acc l).map f := by
  induction l generalizing acc with
  | nil => rfl
  | cons a l ih =>
    rw [List.map_cons, firstOccAux, firstOccAux]
    have hmem : f a ∈ acc.map f ↔ a ∈ acc := by
      constructor
      · intro h
        obtain ⟨x, hx, hfx⟩ := List.mem_map.1 h
        have hx2 : x ∈ acc ++ a :: l := List.mem_append.2 (Or.inl hx)
        have ha2 : a ∈ acc ++ a :: l :=
          List.mem_append.2 (Or.inr (List.mem_cons_self a l))
        rw [← hinj x hx2 a ha2 hfx]
        exact hx
      · intro h
        exact List.mem_map_of_mem f h
    by_cases h : a ∈ acc
    · rw [if_pos (hmem.2 h), if_pos h]
      refine ih acc ?_
      intro x hx y hy
      refine hinj x ?_ y ?_ <;>
        · simp only [List.mem_append, List.mem_cons] at *
          tauto
    · have hsg : List.map f acc ++ [f a] = (acc ++ [a]).map f := by
        simp
      rw [if_neg (fun hh => h (hmem.1 hh)), if_neg h, hsg]
      refine ih (acc ++ [a]) ?_
      intro x hx y hy
      refine hinj x ?_ y ?_ <;>
        · simp only [List.mem_append, List.mem_cons, List.mem_singleton] at *
          tauto

/-- Looking every key of a duplicate-free association list back up reads
off the values. -/
theorem map_alookup_getD {α β : Type} [DecidableEq α] (m : List (α × β)) (d : β)
    (hnd : (m.map Prod.fst).Nodup) :
    (m.map Prod.fst).map (fun s => (alookup m s).getD d) = m.map Prod.snd := by
  induction m with
  | nil => rfl
  | cons kv m ih =>
    rw [List.map_cons, List.map_cons, List.map_cons]
    have h1 : alookup (kv :: m) kv.1 = some kv.2 := by simp [alookup]
    have hk : kv.1 ∉ m.map Prod.fst := by
      rw [List.map_cons] at hnd
      exact (List.nodup_cons.1 hnd).1
    congr 1
    · rw [h1]
      rfl
    · have h2 : (m.map Prod.fst).map (fun s => (alookup (kv :: m) s).getD d) =
          (m.map Prod.fst).map (fun s => (alookup m s).getD d) := by
        refine List.map_congr_left ?_
        intro s hs
        have hne : ¬ kv.1 = s := fun h => hk (h ▸ hs)
        simp [alookup, hne]
      rw [h2]
      refine ih ?_
      rw [List.map_cons] at hnd
      exact (List.nodup_cons.1 hnd).2

/-- Ids outside the list fall through the id→index construction. -/
theorem alookup_buildIdxAux_not (ids : List String) (k : Nat)
    (m : List (String × Nat)) (hnd : ids.Nodup)
    (hdisj : ∀ t ∈ ids, alookup m t = none) (s : String) (hs : s ∉ ids) :
    alookup (buildIdxAux ids k m) s = alookup m s := by
  induction ids generalizing k m with
  | nil => rfl
  | cons id rest ih =>
    have hins : hmInsert m id k = m ++ [(id, k)] := by
      simp [hmInsert, any_key_eq_isSome, hdisj id (List.mem_cons_self id rest)]
    have hnd2 : rest.Nodup := (List.nodup_cons.1 hnd).2
    have hdisj2 : ∀ t ∈ rest, alookup (m ++ [(id, k)]) t = none := by
      intro t ht
      have hne : ¬ id = t := fun h => (List.nodup_cons.1 hnd).1 (h ▸ ht)
      rw [alookup_append_single, hdisj t (List.mem_cons_of_mem id ht)]
      simp [hne]
    show alookup (buildIdxAux rest (k + 1) (hmInsert m id k)) s = alookup m s
    rw [hins,
      ih (k + 1) _ hnd2 hdisj2 (fun h => hs (List.mem_cons_of_mem id h)),
      alookup_append_single]
    have hne : ¬ id = s := fun h => hs (List.mem_cons.2 (Or.inl h.symm))
    cases halo : alookup m s with
    | none => simp [hne]
    | some e => rfl

/-- The id→index construction numbers the ids in order. -/
theorem alookup_buildIdxAux_mem (ids : List String) (k : Nat)
    (m : List (String × Nat)) (hnd : ids.Nodup)
    (hdisj : ∀ t ∈ ids, alookup m t = none) (s : String) (hs : s ∈ ids) :
    alookup (buildIdxAux ids k m) s = some (k + indexOfS ids s) := by
  induction ids generalizing k m with
  | nil => cases hs
  | cons id rest ih =>
    have hins : hmInsert m id k = m ++ [(id, k)] := by
      simp [hmInsert, any_key_eq_isSome, hdisj id (List.mem_cons_self id rest)]
    have hnd2 : rest.Nodup := (List.nodup_cons.1 hnd).2
    have hdisj2 : ∀ t ∈ rest, alookup (m ++ [(id, k)]) t = none := by
      intro t ht
      have hne : ¬ id = t := fun h => (List.nodup_cons.1 hnd).1 (h ▸ ht)
      rw [alookup_append_single, hdisj t (List.mem_cons_of_mem id ht)]
      simp [hne]
    show alookup (buildIdxAux rest (k + 1) (hmInsert m id k)) s =
      some (k + indexOfS (id :: rest) s)
    rw [hins]
    by_cases h : id = s
    · subst h
      have hs2 : id ∉ rest := (List.nodup_cons.1 hnd).1
      rw [alookup_buildIdxAux_not rest (k + 1) _ hnd2 hdisj2 id hs2,
        alookup_append_single, hdisj id (List.mem_cons_self id rest)]
      simp [indexOfS]
    · have hs2 : s ∈ rest := by
        rcases List.mem_cons.1 hs with h2 | h2
        · exact absurd h2.symm h
        · exact h2
      rw [ih (k + 1) _ hnd2 hdisj2 hs2]
      simp only [indexOfS, if_neg h]
      congr 1
      omega

/-- Characterization of the id→index lookup for duplicate-free ids. -/
theorem alookup_idx_iff (ids : List String) (hnd : ids.Nodup) (s : String)
    (a : Nat) :
    alookup (buildIdxAux ids 0 []) s = some a ↔
      a < ids.length ∧ ids.getD a "" = s := by
  constructor
  · intro h
    by_cases hs : s ∈ ids
    · rw [alookup_buildIdxAux_mem ids 0 [] hnd (fun t _ => rfl) s hs] at h
      obtain ⟨h1, h2⟩ := getD_indexOfS ids s hs
      injection h with h3
      rw [← h3, Nat.zero_add]
      exact ⟨h2, h1⟩
    · rw [alookup_buildIdxAux_not ids 0 [] hnd (fun t _ => rfl) s hs] at h
      cases h
  · rintro ⟨ha, hgd⟩
    have hmem : s ∈ ids := hgd ▸ getD_mem_of_lt ids "" a ha
    rw [alookup_buildIdxAux_mem ids 0 [] hnd (fun t _ => rfl) s hmem, ← hgd,
      indexOfS_getD ids hnd a ha, Nat.zero_add]

/-- Every node of the initial parent array is its own parent. -/
theorem pstep_range (n i : Nat) : pstep (List.range n) i = i := by
  unfold pstep
  by_cases h : i < n
  · rw [List.getD_eq_getElem _ _ (by simpa using h), List.getElem_range]
  · rw [List.getD_eq_default _ _ (by simpa using h)]

/-- Every node of the initial parent array is its own root. -/
theorem rootD_range (n i : Nat) : rootD (List.range n) i = i :=
  rootD_of_root _ _ (pstep_range n i)

/-- The initial parent array is a well-formed forest. -/
theorem wfp_range (n : Nat) : WfP (List.range n) := by
  refine ⟨?_, ⟨fun _ => 0, ?_⟩⟩
  · intro i hi
    rw [pstep_range]
    simpa using hi
  · intro i hi
    exact absurd (pstep_range n i) hi

/-- Splitting the edge relation at the head edge. -/
theorem edgeRelIdx_cons (idx : List (String × Nat)) (e : GraphEdge)
    (es : List GraphEdge) (u v : Nat) :
    edgeRelIdx idx (e :: es) u v ↔
      (∃ a b, alookup idx e.source = some a ∧ alookup idx e.target = some b ∧
        ((u = a ∧ v = b) ∨ (u = b ∧ v = a))) ∨ edgeRelIdx idx es u v := by
  constructor
  · rintro ⟨e', he', a, b, h1, h2, h3⟩
    rcases List.mem_cons.1 he' with rfl | he2
    · exact Or.inl ⟨a, b, h1, h2, h3⟩
    · exact Or.inr ⟨e', he2, a, b, h1, h2, h3⟩
  · rintro (⟨a, b, h1, h2, h3⟩ | ⟨e', he2, a, b, h1, h2, h3⟩)
    · exact ⟨e, List.mem_cons_self e es, a, b, h1, h2, h3⟩
    · exact ⟨e', List.mem_cons_of_mem e he2, a, b, h1, h2, h3⟩

/-- The keys of the pure assignment are the processed ids. -/
theorem assignPure_fst (rest : List String) (i : Nat) (ρ : Nat → Nat)
    (F : List Nat) : (assignPure rest i ρ F).map Prod.fst = rest := by
  induction rest generalizing i F with
  | nil => rfl
  | cons id rest ih =>
    rw [assignPure]
    by_cases h : ρ i ∈ F
    · rw [if_pos h, List.map_cons, ih]
    · rw [if_neg h, List.map_cons, ih]

/-- The pure assignment gives the note at position `j` the first-seen
number of its root. -/
theorem assignPure_lookup (rest : List String) (hnd : rest.Nodup) (i : Nat)
    (ρ : Nat → Nat) (F : List Nat) (j : Nat) (hj : j < rest.length) :
    alookup (assignPure rest i ρ F) (rest.getD j "") =
      some (indexOfN (seenRoots rest i ρ F) (ρ (i + j))) := by
  induction rest generalizing i F j with
  | nil => simp at hj
  | cons id rest ih =>
    cases j with
    | zero =>
      rw [Nat.add_zero, List.getD_cons_zero]
      by_cases h : ρ i ∈ F
      · have hseen : seenRoots (id :: rest) i ρ F = seenRoots rest (i + 1) ρ F := by
          show seenRoots rest (i + 1) ρ (if ρ i ∈ F then F else F ++ [ρ i]) = _
          rw [if_pos h]
        obtain ⟨G, hG⟩ := seenRoots_prefix rest (i + 1) ρ F
        rw [assignPure, if_pos h, hseen, hG, indexOfN_append_mem F G _ h]
        simp [alookup]
      · have hseen : seenRoots (id :: rest) i ρ F =
            seenRoots rest (i + 1) ρ (F ++ [ρ i]) := by
          show seenRoots rest (i + 1) ρ (if ρ i ∈ F then F else F ++ [ρ i]) = _
          rw [if_neg h]
        obtain ⟨G, hG⟩ := seenRoots_prefix rest (i + 1) ρ (F ++ [ρ i])
        have hG2 : seenRoots rest (i + 1) ρ (F ++ [ρ i]) = F ++ ρ i :: G := by
          rw [hG, List.append_assoc, List.singleton_append]
        rw [assignPure, if_neg h, hseen, hG2, indexOfN_append_self F G _ h]
        simp [alookup]
    | succ j =>
      have hj2 : j < rest.length := by
        simp only [List.length_cons] at hj
        omega
      have hmem : rest.getD j "" ∈ rest := getD_mem_of_lt rest "" j hj2
      have hne : ¬ id = rest.getD j "" :=
        fun h => (List.nodup_cons.1 hnd).1 (h ▸ hmem)
      have hnd2 : rest.Nodup := (List.nodup_cons.1 hnd).2
      have hplus : i + (j + 1) = (i + 1) + j := by omega
      rw [List.getD_cons_succ, hplus]
      by_cases h : ρ i ∈ F
      · have hseen : seenRoots (id :: rest) i ρ F = seenRoots rest (i + 1) ρ F := by
          show seenRoots rest (i + 1) ρ (if ρ i ∈ F then F else F ++ [ρ i]) = _
          rw [if_pos h]
        rw [assignPure, if_pos h, hseen]
        rw [show alookup ((id, indexOfN F (ρ i)) :: assignPure rest (i + 1) ρ F)
            (rest.getD j "") = alookup (assignPure rest (i + 1) ρ F)
            (rest.getD j "") from if_neg hne]
        exact ih hnd2 (i + 1) F j hj2
      · have hseen : seenRoots (id :: rest) i ρ F =
            seenRoots rest (i + 1) ρ (F ++ [ρ i]) := by
          show seenRoots rest (i + 1) ρ (if ρ i ∈ F then F else F ++ [ρ i]) = _
          rw [if_neg h]
        rw [assignPure, if_neg h, hseen]
        rw [show alookup ((id, F.length) :: assignPure rest (i + 1) ρ (F ++ [ρ i]))
            (rest.getD j "") = alookup (assignPure rest (i + 1) ρ (F ++ [ρ i]))
            (rest.getD j "") from if_neg hne]
        exact ih hnd2 (i + 1) (F ++ [ρ i]) j hj2

/-- The values of the pure assignment, in note order: each processed
index's root, numbered by the final seen-roots list. -/
theorem assignPure_snd (rest : List String) (i : Nat) (ρ : Nat → Nat)
    (F : List Nat) :
    (assignPure rest i ρ F).map Prod.snd =
      ((idxList i rest.length).map ρ).map
        (fun x => indexOfN (seenRoots rest i ρ F) x) := by
  induction rest generalizing i F with
  | nil => rfl
  | cons id rest ih =>
    have hidx : idxList i (id :: rest).length = i :: idxList (i + 1) rest.length := rfl
    by_cases h : ρ i ∈ F
    · have hseen : seenRoots (id :: rest) i ρ F = seenRoots rest (i + 1) ρ F := by
        show seenRoots rest (i + 1) ρ (if ρ i ∈ F then F else F ++ [ρ i]) = _
        rw [if_pos h]
      obtain ⟨G, hG⟩ := seenRoots_prefix rest (i + 1) ρ F
      rw [assignPure, if_pos h, List.map_cons, hidx, List.map_cons, List.map_cons,
        hseen, ih (i + 1) F]
      congr 1
      rw [hG, indexOfN_append_mem F G _ h]
    · have hseen : seenRoots (id :: rest) i ρ F =
          seenRoots rest (i + 1) ρ (F ++ [ρ i]) := by
        show seenRoots rest (i + 1) ρ (if ρ i ∈ F then F else F ++ [ρ i]) = _
        rw [if_neg h]
      obtain ⟨G, hG⟩ := seenRoots_prefix rest (i + 1) ρ (F ++ [ρ i])
      have hG2 : seenRoots rest (i + 1) ρ (F ++ [ρ i]) = F ++ ρ i :: G := by
        rw [hG, List.append_assoc, List.singleton_append]
      rw [assignPure, if_neg h, List.map_cons, hidx, List.map_cons, List.map_cons,
        hseen, ih (i + 1) (F ++ [ρ i])]
      congr 1
      rw [hG2, indexOfN_append_self F G _ h]

/-- The stateful cluster-assignment loop computes the pure assignment:
path compression never changes a root, so only the root map matters. -/
theorem assignClusters_eq_pure (rest : List String) (hnd : rest.Nodup) (i : Nat)
    (parent : List Nat) (F : List Nat) (result : List (String × Nat))
    (ρ : Nat → Nat) (hwf : WfP parent) (hρ : ∀ j, rootD parent j = ρ j)
    (hFnd : F.Nodup)
    (hdisj : ∀ t ∈ rest, alookup result t = none) :
    assignClusters rest i parent (numberFrom 0 F) F.length result =
      result ++ assignPure rest i ρ F := by
  induction rest generalizing i parent F result with
  | nil => simp [assignClusters, assignPure]
  | cons id rest ih =>
    obtain ⟨f1, f2, f3, f4, f5⟩ :=
      ufFind_spec parent.length parent i hwf (wfp_reach parent hwf i)
    rcases hf : ufFind parent.length parent i with ⟨root, parent2⟩
    rw [hf] at f1 f2 f3 f4 f5
    have hroot : root = ρ i := by
      have hx : root = rootD parent i := f1
      rw [hx, hρ i]
    have hρ2 : ∀ j, rootD parent2 j = ρ j := by
      intro j
      have hx : rootD parent2 j = rootD parent j := f5 j
      rw [hx, hρ j]
    have hwf2 : WfP parent2 := f3
    have hnd2 : rest.Nodup := (List.nodup_cons.1 hnd).2
    have hid : id ∉ rest := (List.nodup_cons.1 hnd).1
    have hresid : alookup result id = none := hdisj id (List.mem_cons_self id rest)
    have hstep : assignClusters (id :: rest) i parent (numberFrom 0 F) F.length
        result =
        (match alookup (numberFrom 0 F) root with
         | some c => assignClusters rest (i + 1) parent2 (numberFrom 0 F) F.length
             (hmInsert result id c)
         | none => assignClusters rest (i + 1) parent2
             (hmInsert (numberFrom 0 F) root F.length) (F.length + 1)
             (hmInsert result id F.length)) := by
      show (match ufFind parent.length parent i with
        | (root, parent2) =>
          match alookup (numberFrom 0 F) root with
          | some c => assignClusters rest (i + 1) parent2 (numberFrom 0 F) F.length
              (hmInsert result id c)
          | none => assignClusters rest (i + 1) parent2
              (hmInsert (numberFrom 0 F) root F.length) (F.length + 1)
              (hmInsert result id F.length)) = _
      rw [hf]
    rw [hstep, hroot, alookup_numberFrom F 0 (ρ i), Nat.zero_add]
    by_cases h : ρ i ∈ F
    · rw [if_pos h]
      show assignClusters rest (i + 1) parent2 (numberFrom 0 F) F.length
          (hmInsert result id (indexOfN F (ρ i))) =
        result ++ assignPure (id :: rest) i ρ F
      have hins : hmInsert result id (indexOfN F (ρ i)) =
          result ++ [(id, indexOfN F (ρ i))] := by
        simp [hmInsert, any_key_eq_isSome, hresid]
      have hdisj2 : ∀ t ∈ rest,
          alookup (result ++ [(id, indexOfN F (ρ i))]) t = none := by
        intro t ht
        have hne : ¬ id = t := fun hh => hid (hh ▸ ht)
        rw [alookup_append_single, hdisj t (List.mem_cons_of_mem id ht)]
        simp [hne]
      rw [hins, ih hnd2 (i + 1) parent2 F _ hwf2 hρ2 hFnd hdisj2, assignPure,
        if_pos h, List.append_assoc, List.singleton_append]
    · rw [if_neg h]
      show assignClusters rest (i + 1) parent2
          (hmInsert (numberFrom 0 F) (ρ i) F.length) (F.length + 1)
          (hmInsert result id F.length) = result ++ assignPure (id :: rest) i ρ F
      have hrtcnone : alookup (numberFrom 0 F) (ρ i) = none := by
        rw [alookup_numberFrom, if_neg h]
      have hins1 : hmInsert (numberFrom 0 F) (ρ i) F.length =
          numberFrom 0 (F ++ [ρ i]) := by
        rw [numberFrom_append, Nat.zero_add]
        simp [hmInsert, any_key_eq_isSome, hrtcnone]
      have hins2 : hmInsert result id F.length = result ++ [(id, F.length)] := by
        simp [hmInsert, any_key_eq_isSome, hresid]
      have hFnd2 : (F ++ [ρ i]).Nodup := by
        rw [List.nodup_append]
        exact ⟨hFnd, List.nodup_singleton _,
          fun x hx hx2 => h ((List.mem_singleton.1 hx2) ▸ hx)⟩
      have hlen2 : F.length + 1 = (F ++ [ρ i]).length := by
        simp
      have hdisj2 : ∀ t ∈ rest, alookup (result ++ [(id, F.length)]) t = none := by
        intro t ht
        have hne : ¬ id = t := fun hh => hid (hh ▸ ht)
        rw [alookup_append_single, hdisj t (List.mem_cons_of_mem id ht)]
        simp [hne]
      rw [hins1, hins2, hlen2,
        ih hnd2 (i + 1) parent2 (F ++ [ρ i]) _ hwf2 hρ2 hFnd2 hdisj2, assignPure,
        if_neg h, List.append_assoc, List.singleton_append]

/-- Folding the edges over the parent array keeps the forest well-formed
and makes root equality track the equivalence closure of the processed
edges (on top of a given starting relation). -/
theorem foldEdges_inv (idx : List (String × Nat)) (n : Nat)
    (hidx : ∀ s a, alookup idx s = some a → a < n)
    (es : List GraphEdge) (p : List Nat) (R : Nat → Nat → Prop)
    (hlen : p.length = n) (hwf : WfP p)
    (hinv : ∀ x y, rootD p x = rootD p y ↔ Relation.EqvGen R x y) :
    (es.foldl (edgeStep idx) p).length = n ∧ WfP (es.foldl (edgeStep idx) p) ∧
    (∀ x y, rootD (es.foldl (edgeStep idx) p) x =
        rootD (es.foldl (edgeStep idx) p) y ↔
      Relation.EqvGen (fun u v => R u v ∨ edgeRelIdx idx es u v) x y) := by
  induction es generalizing p R with
  | nil =>
    refine ⟨hlen, hwf, fun x y => (hinv x y).trans (eqvGen_congr ?_)⟩
    intro a b
    constructor
    · exact Or.inl
    · rintro (h | ⟨e, he, _⟩)
      · exact h
      · cases he
  | cons e es ih =>
    rw [List.foldl_cons]
    rcases hsa : alookup idx e.source with _ | a
    · have hstep : edgeStep idx p e = p := by
        unfold edgeStep
        rw [hsa]
      rw [hstep]
      obtain ⟨c1, c2, c3⟩ := ih p R hlen hwf hinv
      refine ⟨c1, c2, fun x y => (c3 x y).trans (eqvGen_congr ?_)⟩
      intro u v
      constructor
      · rintro (h | h)
        · exact Or.inl h
        · exact Or.inr ((edgeRelIdx_cons idx e es u v).2 (Or.inr h))
      · rintro (h | h)
        · exact Or.inl h
        · rcases (edgeRelIdx_cons idx e es u v).1 h with ⟨a2, b2, h1, h2, h3⟩ | h4
          · rw [hsa] at h1
            cases h1
          · exact Or.inr h4
    · rcases hsb : alookup idx e.target with _ | b
      · have hstep : edgeStep idx p e = p := by
          unfold edgeStep
          rw [hsa, hsb]
        rw [hstep]
        obtain ⟨c1, c2, c3⟩ := ih p R hlen hwf hinv
        refine ⟨c1, c2, fun x y => (c3 x y).trans (eqvGen_congr ?_)⟩
        intro u v
        constructor
        · rintro (h | h)
          · exact Or.inl h
          · exact Or.inr ((edgeRelIdx_cons idx e es u v).2 (Or.inr h))
        · rintro (h | h)
          · exact Or.inl h
          · rcases (edgeRelIdx_cons idx e es u v).1 h with ⟨a2, b2, h1, h2, h3⟩ | h4
            · rw [hsb] at h2
              cases h2
            · exact Or.inr h4
      · have hstep : edgeStep idx p e = ufUnion p a b := by
          unfold edgeStep
          rw [hsa, hsb]
        rw [hstep]
        have ha : a < p.length := by
          rw [hlen]
          exact hidx _ _ hsa
        have hb : b < p.length := by
          rw [hlen]
          exact hidx _ _ hsb
        obtain ⟨u1, u2, u3⟩ := ufUnion_spec p a b hwf ha hb
        have hinv2 : ∀ x y, rootD (ufUnion p a b) x = rootD (ufUnion p a b) y ↔
            Relation.EqvGen
              (fun u v => R u v ∨ ((u = a ∧ v = b) ∨ (u = b ∧ v = a))) x y := by
          intro x y
          constructor
          · intro hxy
            rcases (u3 x y).1 hxy with hold | ⟨hxa, hyb⟩ | ⟨hxb, hya⟩
            · exact eqvGen_mono (fun u v h => Or.inl h) ((hinv x y).1 hold)
            · have h1 : Relation.EqvGen
                  (fun u v => R u v ∨ ((u = a ∧ v = b) ∨ (u = b ∧ v = a))) x a :=
                eqvGen_mono (fun u v (h : R u v) => Or.inl h) ((hinv x a).1 hxa)
              have h2 : Relation.EqvGen
                  (fun u v => R u v ∨ ((u = a ∧ v = b) ∨ (u = b ∧ v = a))) a b :=
                Relation.EqvGen.rel a b (Or.inr (Or.inl ⟨rfl, rfl⟩))
              have h3 : Relation.EqvGen
                  (fun u v => R u v ∨ ((u = a ∧ v = b) ∨ (u = b ∧ v = a))) b y :=
                Relation.EqvGen.symm _ _
                  (eqvGen_mono (fun u v (h : R u v) => Or.inl h) ((hinv y b).1 hyb))
              exact Relation.EqvGen.trans _ _ _
                (Relation.EqvGen.trans _ _ _ h1 h2) h3
            · have h1 : Relation.EqvGen
                  (fun u v => R u v ∨ ((u = a ∧ v = b) ∨ (u = b ∧ v = a))) x b :=
                eqvGen_mono (fun u v (h : R u v) => Or.inl h) ((hinv x b).1 hxb)
              have h2 : Relation.EqvGen
                  (fun u v => R u v ∨ ((u = a ∧ v = b) ∨ (u = b ∧ v = a))) b a :=
                Relation.EqvGen.rel b a (Or.inr (Or.inr ⟨rfl, rfl⟩))
              have h3 : Relation.EqvGen
                  (fun u v => R u v ∨ ((u = a ∧ v = b) ∨ (u = b ∧ v = a))) a y :=
                Relation.EqvGen.symm _ _
                  (eqvGen_mono (fun u v (h : R u v) => Or.inl h) ((hinv y a).1 hya))
              exact Relation.EqvGen.trans _ _ _
                (Relation.EqvGen.trans _ _ _ h1 h2) h3
          · intro hg
            refine @eqvGen_lift ℕ
              (fun u v => R u v ∨ ((u = a ∧ v = b) ∨ (u = b ∧ v = a)))
              (fun u v => rootD (ufUnion p a b) u = rootD (ufUnion p a b) v)
              (fun u => rfl) (fun u v h => h.symm)
              (fun u v w h1 h2 => h1.trans h2) ?_ x y hg
            rintro u v (h | ⟨rfl, rfl⟩ | ⟨rfl, rfl⟩)
            · exact (u3 u v).2 (Or.inl ((hinv u v).2 (Relation.EqvGen.rel u v h)))
            · exact (u3 u v).2 (Or.inr (Or.inl ⟨rfl, rfl⟩))
            · exact (u3 u v).2 (Or.inr (Or.inr ⟨rfl, rfl⟩))
        obtain ⟨c1, c2, c3⟩ := ih (ufUnion p a b) _ (u1.trans hlen) u2 hinv2
        refine ⟨c1, c2, fun x y => (c3 x y).trans (eqvGen_congr ?_)⟩
        intro u v
        constructor
        · rintro ((hR | hcross) | hes)
          · exact Or.inl hR
          · exact Or.inr ((edgeRelIdx_cons idx e es u v).2
              (Or.inl ⟨a, b, hsa, hsb, hcross⟩))
          · exact Or.inr ((edgeRelIdx_cons idx e es u v).2 (Or.inr hes))
        · rintro (hR | hrel)
          · exact Or.inl (Or.inl hR)
          · rcases (edgeRelIdx_cons idx e es u v).1 hrel with ⟨a2, b2, h1, h2, h3⟩ | h4
            · rw [hsa] at h1
              rw [hsb] at h2
              injection h1 with h1
              injection h2 with h2
              subst h1
              subst h2
              exact Or.inl (Or.inr h3)
            · exact Or.inr h4

/-- The claim's edge relation is symmetric. -/
theorem edgeRelId_symm (db : Database) (threshold : ℚ) (x y : String)
    (h : edgeRelId db threshold x y) : edgeRelId db threshold y x := by
  obtain ⟨r, hr, hsim, hx, hy, hcase⟩ := h
  rcases hcase with ⟨h1, h2⟩ | ⟨h1, h2⟩
  · exact ⟨r, hr, hsim, hy, hx, Or.inr ⟨h2, h1⟩⟩
  · exact ⟨r, hr, hsim, hy, hx, Or.inl ⟨h2, h1⟩⟩

/-- An index-level edge step maps to an id-level edge step. -/
theorem edgeRelIdx_to_id (db : Database) (threshold : ℚ)
    (hnd : (db.notes.map NoteRow.id).Nodup) (u v : Nat)
    (h : edgeRelIdx (buildIdxAux (db.notes.map NoteRow.id) 0 [])
      (selEdges db threshold) u v) :
    edgeRelId db threshold ((db.notes.map NoteRow.id).getD u "")
      ((db.notes.map NoteRow.id).getD v "") := by
  obtain ⟨e, he, a, b, h1, h2, h3⟩ := h
  obtain ⟨r, hr, hre⟩ := List.mem_map.1 he
  have hrmem : r ∈ db.similarity_cache := (List.mem_filter.1 hr).1
  have hsim : threshold ≤ r.similarity := of_decide_eq_true (List.mem_filter.1 hr).2
  obtain ⟨ha1, ha2⟩ := (alookup_idx_iff _ hnd _ _).1 h1
  obtain ⟨hb1, hb2⟩ := (alookup_idx_iff _ hnd _ _).1 h2
  have hes : e.source = r.note_id_a := by rw [← hre]
  have het : e.target = r.note_id_b := by rw [← hre]
  have hma : r.note_id_a ∈ db.notes.map NoteRow.id := by
    rw [← hes, ← ha2]
    exact getD_mem_of_lt _ _ _ ha1
  have hmb : r.note_id_b ∈ db.notes.map NoteRow.id := by
    rw [← het, ← hb2]
    exact getD_mem_of_lt _ _ _ hb1
  rcases h3 with ⟨hu, hv⟩ | ⟨hu, hv⟩
  · have hgu : (db.notes.map NoteRow.id).getD u "" = r.note_id_a := by
      rw [hu, ha2, hes]
    have hgv : (db.notes.map NoteRow.id).getD v "" = r.note_id_b := by
      rw [hv, hb2, het]
    refine ⟨r, hrmem, hsim, ?_, ?_, Or.inl ⟨hgu, hgv⟩⟩
    · rw [hgu]
      exact hma
    · rw [hgv]
      exact hmb
  · have hgu : (db.notes.map NoteRow.id).getD u "" = r.note_id_b := by
      rw [hu, hb2, het]
    have hgv : (db.notes.map NoteRow.id).getD v "" = r.note_id_a := by
      rw [hv, ha2, hes]
    refine ⟨r, hrmem, hsim, ?_, ?_, Or.inr ⟨hgu, hgv⟩⟩
    · rw [hgu]
      exact hmb
    · rw [hgv]
      exact hma

/-- An id-level edge step maps to an index-level edge step. -/
theorem edgeRelId_to_idx (db : Database) (threshold : ℚ)
    (hnd : (db.notes.map NoteRow.id).Nodup) (x y : String)
    (h : edgeRelId db threshold x y) :
    edgeRelIdx (buildIdxAux (db.notes.map NoteRow.id) 0 [])
      (selEdges db threshold)
      (indexOfS (db.notes.map NoteRow.id) x)
      (indexOfS (db.notes.map NoteRow.id) y) := by
  obtain ⟨r, hr, hsim, hx, hy, hcase⟩ := h
  have he : GraphEdge.mk r.note_id_a r.note_id_b r.similarity ∈
      selEdges db threshold :=
    List.mem_map.2 ⟨r, List.mem_filter.2 ⟨hr, decide_eq_true hsim⟩, rfl⟩
  rcases hcase with ⟨hx2, hy2⟩ | ⟨hx2, hy2⟩
  · have hma : r.note_id_a ∈ db.notes.map NoteRow.id := by
      rw [← hx2]
      exact hx
    have hmb : r.note_id_b ∈ db.notes.map NoteRow.id := by
      rw [← hy2]
      exact hy
    obtain ⟨hga, hla⟩ := getD_indexOfS _ r.note_id_a hma
    obtain ⟨hgb, hlb⟩ := getD_indexOfS _ r.note_id_b hmb
    refine ⟨_, he, indexOfS (db.notes.map NoteRow.id) r.note_id_a,
      indexOfS (db.notes.map NoteRow.id) r.note_id_b, ?_, ?_, Or.inl ⟨?_, ?_⟩⟩
    · exact (alookup_idx_iff _ hnd _ _).2 ⟨hla, hga⟩
    · exact (alookup_idx_iff _ hnd _ _).2 ⟨hlb, hgb⟩
    · rw [hx2]
    · rw [hy2]
  · have hma : r.note_id_a ∈ db.notes.map NoteRow.id := by
      rw [← hy2]
      exact hy
    have hmb : r.note_id_b ∈ db.notes.map NoteRow.id := by
      rw [← hx2]
      exact hx
    obtain ⟨hga, hla⟩ := getD_indexOfS _ r.note_id_a hma
    obtain ⟨hgb, hlb⟩ := getD_indexOfS _ r.note_id_b hmb
    refine ⟨_, he, indexOfS (db.notes.map NoteRow.id) r.note_id_a,
      indexOfS (db.notes.map NoteRow.id) r.note_id_b, ?_, ?_, Or.inr ⟨?_, ?_⟩⟩
    · exact (alookup_idx_iff _ hnd _ _).2 ⟨hla, hga⟩
    · exact (alookup_idx_iff _ hnd _ _).2 ⟨hlb, hgb⟩
    · rw [hx2]
    · rw [hy2]

/-- Index-level connectivity is id-level connectivity, through the
position↔id bijection on a duplicate-free note list. -/
theorem eqvGen_transfer (db : Database) (threshold : ℚ)
    (hnd : (db.notes.map NoteRow.id).Nodup) (u v : Nat)
    (hu : u < (db.notes.map NoteRow.id).length)
    (hv : v < (db.notes.map NoteRow.id).length) :
    Relation.EqvGen (edgeRelIdx (buildIdxAux (db.notes.map NoteRow.id) 0 [])
      (selEdges db threshold)) u v ↔
    ConnectedIds db threshold ((db.notes.map NoteRow.id).getD u "")
      ((db.notes.map NoteRow.id).getD v "") := by
  constructor
  · intro hg
    exact eqvGen_map (fun i => (db.notes.map NoteRow.id).getD i "")
      (fun a b h => edgeRelIdx_to_id db threshold hnd a b h) hg
  · intro hg
    have hg2 : Relation.EqvGen (edgeRelId db threshold)
        ((db.notes.map NoteRow.id).getD u "")
        ((db.notes.map NoteRow.id).getD v "") := hg
    have h2 := eqvGen_map (fun s => indexOfS (db.notes.map NoteRow.id) s)
      (fun a b h => edgeRelId_to_idx db threshold hnd a b h) hg2
    have h3 : Relation.EqvGen
        (edgeRelIdx (buildIdxAux (db.notes.map NoteRow.id) 0 [])
          (selEdges db threshold))
        (indexOfS (db.notes.map NoteRow.id) ((db.notes.map NoteRow.id).getD u ""))
        (indexOfS (db.notes.map NoteRow.id) ((db.notes.map NoteRow.id).getD v "")) :=
      h2
    rw [indexOfS_getD _ hnd u hu, indexOfS_getD _ hnd v hv] at h3
    exact h3

/-- `union_find_clusters` computes the pure assignment over the folded
forest, whose root equality is connectivity over the edge list. -/
theorem union_find_clusters_eq_pure (ids : List String) (edges : List GraphEdge)
    (hnd : ids.Nodup) :
    union_find_clusters ids edges =
      assignPure ids 0 (rootD (edges.foldl (edgeStep (buildIdxAux ids 0 []))
        (List.range ids.length))) [] ∧
    WfP (edges.foldl (edgeStep (buildIdxAux ids 0 [])) (List.range ids.length)) ∧
    (edges.foldl (edgeStep (buildIdxAux ids 0 []))
      (List.range ids.length)).length = ids.length ∧
    (∀ x y, rootD (edges.foldl (edgeStep (buildIdxAux ids 0 []))
          (List.range ids.length)) x =
        rootD (edges.foldl (edgeStep (buildIdxAux ids 0 []))
          (List.range ids.length)) y ↔
      Relation.EqvGen (edgeRelIdx (buildIdxAux ids 0 []) edges) x y) := by
  have hidxlt : ∀ s a, alookup (buildIdxAux ids 0 []) s = some a →
      a < ids.length :=
    fun s a h => ((alookup_idx_iff ids hnd s a).1 h).1
  have hinv0 : ∀ x y, rootD (List.range ids.length) x =
      rootD (List.range ids.length) y ↔
      Relation.EqvGen (fun _ _ => (False : Prop)) x y := by
    intro x y
    rw [rootD_range, rootD_range]
    constructor
    · intro h
      exact h ▸ Relation.EqvGen.refl x
    · exact eqvGen_false
  obtain ⟨F1, F2, F3⟩ := foldEdges_inv (buildIdxAux ids 0 []) ids.length hidxlt
    edges (List.range ids.length) (fun _ _ => False) (List.length_range _)
    (wfp_range _) hinv0
  have hconn : ∀ x y, rootD (edges.foldl (edgeStep (buildIdxAux ids 0 []))
        (List.range ids.length)) x =
      rootD (edges.foldl (edgeStep (buildIdxAux ids 0 []))
        (List.range ids.length)) y ↔
      Relation.EqvGen (edgeRelIdx (buildIdxAux ids 0 []) edges) x y := by
    intro x y
    rw [F3 x y]
    exact eqvGen_congr (fun a b =>
      ⟨fun h => h.resolve_left (fun hf => hf), Or.inr⟩)
  refine ⟨?_, F2, F1, hconn⟩
  have h := assignClusters_eq_pure ids hnd 0
    (edges.foldl (edgeStep (buildIdxAux ids 0 [])) (List.range ids.length)) [] []
    (rootD (edges.foldl (edgeStep (buildIdxAux ids 0 [])) (List.range ids.length)))
    F2 (fun j => rfl) List.nodup_nil (fun t _ => rfl)
  rw [List.nil_append] at h
  exact h

/-- Cluster of the note at position `j`: the first-seen number of its
root in the folded forest. -/
theorem union_find_clusters_lookup (ids : List String) (edges : List GraphEdge)
    (hnd : ids.Nodup) (j : Nat) (hj : j < ids.length) :
    alookup (union_find_clusters ids edges) (ids.getD j "") =
      some (indexOfN
        (seenRoots ids 0 (rootD (edges.foldl (edgeStep (buildIdxAux ids 0 []))
          (List.range ids.length))) [])
        (rootD (edges.foldl (edgeStep (buildIdxAux ids 0 []))
          (List.range ids.length)) j)) := by
  rw [(union_find_clusters_eq_pure ids edges hnd).1]
  have h := assignPure_lookup ids hnd 0
    (rootD (edges.foldl (edgeStep (buildIdxAux ids 0 [])) (List.range ids.length)))
    [] j hj
  rwa [Nat.zero_add] at h

/-- Each in-range position's root occurs among the seen roots. -/
theorem rootD_mem_seen (ids : List String) (ρ : Nat → Nat) (j : Nat)
    (hj : j < ids.length) : ρ j ∈ seenRoots ids 0 ρ [] := by
  rw [seenRoots_eq, mem_firstOccAux]
  exact Or.inr (List.mem_map.2
    ⟨j, (mem_idxList 0 ids.length j).2 ⟨Nat.zero_le j, by omega⟩, rfl⟩)

/-- The keys of `union_find_clusters` are the ids, in order. -/
theorem union_find_clusters_fst (ids : List String) (edges : List GraphEdge)
    (hnd : ids.Nodup) :
    (union_find_clusters ids edges).map Prod.fst = ids := by
  rw [(union_find_clusters_eq_pure ids edges hnd).1, assignPure_fst]

/-- The distinct cluster values of `union_find_clusters`, in first-seen
order, are `0, 1, 2, …`. -/
theorem union_find_clusters_numbering (ids : List String)
    (edges : List GraphEdge) (hnd : ids.Nodup) :
    firstOcc ((union_find_clusters ids edges).map Prod.snd) =
      List.range
        (firstOcc ((union_find_clusters ids edges).map Prod.snd)).length := by
  obtain ⟨hpure, -, -, -⟩ := union_find_clusters_eq_pure ids edges hnd
  rw [hpure, assignPure_snd]
  have hFall : seenRoots ids 0 (rootD (edges.foldl (edgeStep (buildIdxAux ids 0 []))
      (List.range ids.length))) [] =
      firstOcc ((idxList 0 ids.length).map
        (rootD (edges.foldl (edgeStep (buildIdxAux ids 0 []))
          (List.range ids.length)))) := by
    rw [seenRoots_eq]
    rfl
  rw [hFall]
  generalize ((idxList 0 ids.length).map
    (rootD (edges.foldl (edgeStep (buildIdxAux ids 0 []))
      (List.range ids.length)))) = L
  have hinj2 : ∀ x ∈ ([] : List Nat) ++ L, ∀ y ∈ ([] : List Nat) ++ L,
      indexOfN (firstOcc L) x = indexOfN (firstOcc L) y → x = y := by
    intro x hx y hy he
    rw [List.nil_append] at hx hy
    exact indexOfN_inj _ _ _ ((mem_firstOccAux L [] x).2 (Or.inr hx))
      ((mem_firstOccAux L [] y).2 (Or.inr hy)) he
  have hfim : firstOcc (L.map (fun x => indexOfN (firstOcc L) x)) =
      (firstOcc L).map (fun x => indexOfN (firstOcc L) x) :=
    firstOccAux_map_inj (fun x => indexOfN (firstOcc L) x) L [] hinj2
  have hrange : (firstOcc L).map (fun x => indexOfN (firstOcc L) x) =
      List.range (firstOcc L).length :=
    map_indexOfN_self (firstOcc L) (nodup_firstOccAux L [] List.nodup_nil)
  rw [hfim, hrange, List.length_range]

/-- Two notes of a duplicate-free notes table receive equal cluster
values exactly when connected by selected similarity edges. -/
theorem union_find_clusters_iff (db : Database) (threshold : ℚ)
    (hnd : (db.notes.map NoteRow.id).Nodup) (rx ry : NoteRow)
    (hrx : rx ∈ db.notes) (hry : ry ∈ db.notes) :
    ((alookup (union_find_clusters (db.notes.map NoteRow.id)
        (selEdges db threshold)) rx.id).getD 0 =
      (alookup (union_find_clusters (db.notes.map NoteRow.id)
        (selEdges db threshold)) ry.id).getD 0 ↔
     ConnectedIds db threshold rx.id ry.id) := by
  have hmx : rx.id ∈ db.notes.map NoteRow.id := List.mem_map.2 ⟨rx, hrx, rfl⟩
  have hmy : ry.id ∈ db.notes.map NoteRow.id := List.mem_map.2 ⟨ry, hry, rfl⟩
  obtain ⟨hgx, hlx⟩ := getD_indexOfS _ rx.id hmx
  obtain ⟨hgy, hly⟩ := getD_indexOfS _ ry.id hmy
  have hcx := union_find_clusters_lookup (db.notes.map NoteRow.id)
    (selEdges db threshold) hnd _ hlx
  rw [hgx] at hcx
  have hcy := union_find_clusters_lookup (db.notes.map NoteRow.id)
    (selEdges db threshold) hnd _ hly
  rw [hgy] at hcy
  rw [hcx, hcy]
  simp only [Option.getD_some]
  obtain ⟨-, -, -, hconnF⟩ := union_find_clusters_eq_pure
    (db.notes.map NoteRow.id) (selEdges db threshold) hnd
  constructor
  · intro he
    have hre := indexOfN_inj _ _ _
      (rootD_mem_seen (db.notes.map NoteRow.id) _ _ hlx)
      (rootD_mem_seen (db.notes.map NoteRow.id) _ _ hly) he
    have h2 := (hconnF _ _).1 hre
    have h3 := (eqvGen_transfer db threshold hnd _ _ hlx hly).1 h2
    rwa [hgx, hgy] at h3
  · intro hc
    have h3 : ConnectedIds db threshold
        ((db.notes.map NoteRow.id).getD (indexOfS (db.notes.map NoteRow.id)
          rx.id) "")
        ((db.notes.map NoteRow.id).getD (indexOfS (db.notes.map NoteRow.id)
          ry.id) "") := by
      rw [hgx, hgy]
      exact hc
    have h2 := (eqvGen_transfer db threshold hnd _ _ hlx hly).2 h3
    rw [(hconnF _ _).2 h2]

/-- C7: in `get_graph(center, threshold)` over a notes table with
distinct ids, two notes receive the same cluster id iff they are
connected by a path of similarity-cache edges at or above the threshold
whose endpoints are loaded notes; a note incident to no such edge shares
its cluster id with no other note; and the distinct cluster ids, in
order of first appearance over the node list, are `0, 1, 2, …`. -/
theorem get_graph_cluster_spec (db : Database) (c : Option String)
    (threshold : ℚ) (hnd : (db.notes.map NoteRow.id).Nodup) :
    (∀ nx ∈ (get_graph db c threshold).nodes,
      ∀ ny ∈ (get_graph db c threshold).nodes,
        (nx.cluster = ny.cluster ↔ ConnectedIds db threshold nx.id ny.id)) ∧
    (∀ nx ∈ (get_graph db c threshold).nodes,
      (∀ y, ¬ edgeRelId db threshold nx.id y) →
      ∀ ny ∈ (get_graph db c threshold).nodes,
        nx.cluster = ny.cluster → nx.id = ny.id) ∧
    firstOcc ((get_graph db c threshold).nodes.map GraphNode.cluster) =
      List.range
        (firstOcc ((get_graph db c threshold).nodes.map
          GraphNode.cluster)).length := by
  cases hdb : db.notes with
  | nil =>
    have hg : get_graph db c threshold = { nodes := [], edges := [] } := by
      simp [get_graph, hdb]
    rw [hg]
    refine ⟨?_, ?_, rfl⟩
    · intro nx hnx
      cases hnx
    · intro nx hnx
      cases hnx
  | cons r0 rows =>
    have hne : ((db.notes.map (fun r => (r.id, r.title))).isEmpty) = false := by
      rw [hdb]
      rfl
    have hids : (db.notes.map (fun r => (r.id, r.title))).map Prod.fst =
        db.notes.map NoteRow.id := by
      rw [List.map_map]
      rfl
    have hg : get_graph db c threshold =
        GraphData.mk
          ((db.notes.map (fun r => (r.id, r.title))).map (fun nt =>
            GraphNode.mk nt.1 nt.2
              ((alookup (union_find_clusters (db.notes.map NoteRow.id)
                (selEdges db threshold)) nt.1).getD 0)))
          (selEdges db threshold) := by
      simp only [get_graph]
      rw [hne]
      simp only [Bool.false_eq_true, if_false]
      rw [hids]
    rw [hg]
    refine ⟨?_, ?_, ?_⟩
    · intro nx hnx ny hny
      obtain ⟨ntx, hntx, rfl⟩ := List.mem_map.1 hnx
      obtain ⟨rx, hrx, rfl⟩ := List.mem_map.1 hntx
      obtain ⟨nty, hnty, rfl⟩ := List.mem_map.1 hny
      obtain ⟨ry, hry, rfl⟩ := List.mem_map.1 hnty
      exact union_find_clusters_iff db threshold hnd rx ry hrx hry
    · intro nx hnx hiso ny hny hcl
      obtain ⟨ntx, hntx, rfl⟩ := List.mem_map.1 hnx
      obtain ⟨rx, hrx, rfl⟩ := List.mem_map.1 hntx
      obtain ⟨nty, hnty, rfl⟩ := List.mem_map.1 hny
      obtain ⟨ry, hry, rfl⟩ := List.mem_map.1 hnty
      have hcl2 : (alookup (union_find_clusters (db.notes.map NoteRow.id)
          (selEdges db threshold)) rx.id).getD 0 =
          (alookup (union_find_clusters (db.notes.map NoteRow.id)
            (selEdges db threshold)) ry.id).getD 0 := hcl
      have hc := (union_find_clusters_iff db threshold hnd rx ry hrx hry).1 hcl2
      have hc2 : Relation.EqvGen (edgeRelId db threshold) rx.id ry.id := hc
      show rx.id = ry.id
      rcases eqvGen_touch hc2 with he | ⟨⟨z, hz⟩, -⟩
      · exact he
      · rcases hz with hz | hz
        · exact absurd hz (hiso z)
        · exact absurd (edgeRelId_symm db threshold z rx.id hz) (hiso z)
    · have hnodes : (((db.notes.map (fun r => (r.id, r.title))).map (fun nt =>
            GraphNode.mk nt.1 nt.2
              ((alookup (union_find_clusters (db.notes.map NoteRow.id)
                (selEdges db threshold)) nt.1).getD 0))).map GraphNode.cluster) =
          (db.notes.map NoteRow.id).map (fun s =>
            (alookup (union_find_clusters (db.notes.map NoteRow.id)
              (selEdges db threshold)) s).getD 0) := by
        simp only [List.map_map]
        rfl
      have hvals := map_alookup_getD (union_find_clusters
        (db.notes.map NoteRow.id) (selEdges db threshold)) 0
        (by rw [union_find_clusters_fst _ _ hnd]; exact hnd)
      rw [union_find_clusters_fst _ _ hnd] at hvals
      show firstOcc _ = List.range (firstOcc _).length
      rw [hnodes, hvals]
      exact union_find_clusters_numbering _ _ hnd

/-- Witness for C7 on a concrete two-note database. -/
theorem get_graph_cluster_spec_witness :
    (cexGraphDb.notes.map NoteRow.id).Nodup ∧
    ((∀ nx ∈ (get_graph cexGraphDb none 0).nodes,
      ∀ ny ∈ (get_graph cexGraphDb none 0).nodes,
        (nx.cluster = ny.cluster ↔ ConnectedIds cexGraphDb 0 nx.id ny.id)) ∧
     (∀ nx ∈ (get_graph cexGraphDb none 0).nodes,
      (∀ y, ¬ edgeRelId cexGraphDb 0 nx.id y) →
      ∀ ny ∈ (get_graph cexGraphDb none 0).nodes,
        nx.cluster = ny.cluster → nx.id = ny.id) ∧
     firstOcc ((get_graph cexGraphDb none 0).nodes.map GraphNode.cluster) =
       List.range
         (firstOcc ((get_graph cexGraphDb none 0).nodes.map
           GraphNode.cluster)).length) :=
  ⟨by decide, get_graph_cluster_spec cexGraphDb none 0 (by decide)⟩

/-- Witness for C8 at a concrete vector. -/
theorem blob_embedding_roundtrip_witness :
    (∀ x ∈ [0, 1, 255, 4294967295, 1078530011], x < 2 ^ 32) ∧
      blob_to_embedding (embedding_to_blob [0, 1, 255, 4294967295, 1078530011]) =
        [0, 1, 255, 4294967295, 1078530011] :=
  ⟨by decide, blob_embedding_roundtrip [0, 1, 255, 4294967295, 1078530011] (by decide)⟩

end Sunder
